import Mathlib

/-!
A verification development for the Quine-McCluskey boolean-function minimizer
(module qm.py of the quine-mccluskey package).

Modelling conventions:
* Python strings are modelled as lists of characters (abbreviation Str).
* Python sets of strings are modelled as canonically sorted, duplicate-free
  lists (ascending code-point lexicographic order, the same order Python's
  sorted() produces on str).  All set-building operations below go through
  insertStr, which maintains that canonical form, so list equality of two
  canonical lists coincides with set equality.  Where the Python code iterates
  over a set or a dict in unspecified hash order, this model iterates in the
  canonical order, which is one of the orders the Python implementation can
  exhibit; where the Python code sorts explicitly the model sorts identically.
* Python integers appearing here are all non-negative and are modelled as Nat
  (for the loop pointer of the permutations generator, which reaches -1, Int
  is used instead).
* Loops whose termination is not structurally obvious take a fuel argument.
  Results are wrapped in PRes: .out r is a normal return, .err is a raised
  Python exception (IndexError / ValueError; assert failures are modelled
  separately where noted), .spin means the fuel ran out (a model artifact
  that corresponds to no Python behaviour; theorems about returning calls
  quantify over the fuel).
* float complexity: the weights 1.00 / 1.50 / 1.25 / 1.75 of complexity() are
  scaled by 4 to the integers 4 / 6 / 5 / 7 (complexity4); all the code ever
  does with complexity values is compare them, and the scaling is exact, so
  the orders agree.
* assert statements: assert len(t1) == len(t2) in reduce_simple_xor_terms is
  modelled by the truncating zip (all call sites and all theorems below use
  equal lengths, where the assert passes); the assert n_xor == 0 or n_xnor == 0
  of get_prime_implicants is modelled faithfully as a .err outcome.
-/

abbrev Str := List Char

/-- Python string comparison: lexicographic on code points, a proper prefix
precedes its extensions. -/
def strLt : Str → Str → Bool
  | [], [] => false
  | [], _ :: _ => true
  | _ :: _, [] => false
  | a :: as, b :: bs =>
    if a.val < b.val then true
    else if b.val < a.val then false
    else strLt as bs

/-- Ordered insertion into a canonically sorted duplicate-free list:
the model of set.add. -/
def insertStr (s : Str) : List Str → List Str
  | [] => [s]
  | t :: ts =>
    if strLt s t then s :: t :: ts
    else if s = t then t :: ts
    else t :: insertStr s ts

/-- Canonical set built from a list of strings: the model of set(xs). -/
def listToSet (l : List Str) : List Str :=
  l.foldl (fun acc s => insertStr s acc) []

/-- Set union, the model of the | operator on Python sets (left operand
already canonical). -/
def unionS (a b : List Str) : List Str :=
  b.foldl (fun acc s => insertStr s acc) a

/-- Number of occurrences of a character in a string: str.count. -/
def countC (t : Str) (c : Char) : Nat :=
  t.foldl (fun n d => if d = c then n + 1 else n) 0

/-- s[:i] + c + s[i+1:] -- replacing one character of a string. -/
def setPos (t : Str) (i : Nat) (c : Char) : Str :=
  t.set i c

/-- Result of a fuelled computation modelling Python control flow. -/
inductive PRes (α : Type) where
  | out : α → PRes α
  | err : PRes α
  | spin : PRes α
deriving DecidableEq, Repr

def PRes.bind : PRes α → (α → PRes β) → PRes β
  | .out a, f => f a
  | .err, _ => .err
  | .spin, _ => .spin

instance : Monad PRes where
  pure := PRes.out
  bind := PRes.bind

/-- Decimal parse of a string: the model of Python int(e).  Fails (None,
modelling ValueError) on an empty string or a non-digit character. -/
def parseDec (s : Str) : Option Nat :=
  match s with
  | [] => none
  | _ =>
    s.foldl
      (fun acc c =>
        match acc with
        | none => none
        | some n => if c.isDigit then some (n * 10 + (c.toNat - '0'.toNat)) else none)
      (some 0)

/-- Binary parse of a string: the model of Python int(s, base=2).  Fails on an
empty string or a character other than 0 and 1. -/
def parseBin (s : Str) : Option Nat :=
  match s with
  | [] => none
  | _ =>
    s.foldl
      (fun acc c =>
        match acc with
        | none => none
        | some n =>
          if c = '0' then some (n * 2)
          else if c = '1' then some (n * 2 + 1)
          else none)
      (some 0)

/-! ## num2str -/

/-- num2str(n_bits, i): the binary string of the low n_bits bits of i, most
significant bit first. -/
def num2str (nBits : Nat) (i : Nat) : Str :=
  (List.range nBits).map
    (fun j => if i &&& (1 <<< (nBits - 1 - j)) ≠ 0 then '1' else '0')

/-! ## Pairwise XOR / XNOR reducers -/

/-- The scanning loop of reduce_simple_xor_terms: returns the two mismatch
counters together with the merged characters, or none as soon as one operand
carries an operator character. -/
def rsxScan : List Char → List Char → Option (Nat × Nat × List Char)
  | c1 :: r1, c2 :: r2 =>
    if c1 = '^' ∨ c2 = '^' ∨ c1 = '~' ∨ c2 = '~' then none
    else
      match rsxScan r1 r2 with
      | none => none
      | some (d10, d20, ret) =>
        if c1 ≠ c2 then
          if c2 = '0' then some (d10 + 1, d20, '^' :: ret)
          else some (d10, d20 + 1, '^' :: ret)
        else some (d10, d20, c1 :: ret)
  | _, _ => some (0, 0, [])

/-- reduce_simple_xor_terms(t1, t2). -/
def reduce_simple_xor_terms (t1 t2 : Str) : Option Str :=
  match rsxScan t1 t2 with
  | none => none
  | some (d10, d20, ret) => if d10 = 1 ∧ d20 = 1 then some ret else none

/-- The scanning loop of reduce_simple_xnor_terms (counters keyed on t1's
character, merged characters are tildes). -/
def rsxnScan : List Char → List Char → Option (Nat × Nat × List Char)
  | c1 :: r1, c2 :: r2 =>
    if c1 = '^' ∨ c2 = '^' ∨ c1 = '~' ∨ c2 = '~' then none
    else
      match rsxnScan r1 r2 with
      | none => none
      | some (d10, d20, ret) =>
        if c1 ≠ c2 then
          if c1 = '0' then some (d10 + 1, d20, '~' :: ret)
          else some (d10, d20 + 1, '~' :: ret)
        else some (d10, d20, c1 :: ret)
  | _, _ => some (0, 0, [])

/-- reduce_simple_xnor_terms(t1, t2). -/
def reduce_simple_xnor_terms (t1 t2 : Str) : Option Str :=
  match rsxnScan t1 t2 with
  | none => none
  | some (d10, d20, ret) =>
    if (d10 = 2 ∧ d20 = 0) ∨ (d10 = 0 ∧ d20 = 2) then some ret else none

/-! ## The concretizer: permutations(value, exclude) -/

/-- One iteration body of the while-loop of permutations: reading character c
at position i, it returns the updated (res, direction, seen_xors, xor_value).
nXor and seenXors are carried as Int because the Python code compares
seen_xors against n_xor - 1 with int semantics (n_xor - 1 is -1 when
n_xor = 0). -/
def permBody (c : Char) (res : List Char) (i : Nat) (direction : Int)
    (seenXors : Int) (nXor : Int) (xorValue : Nat) :
    List Char × Int × Int × Nat :=
  if c = '0' ∨ c = '1' then
    (res.set i c, direction, seenXors, xorValue)
  else if c = '-' then
    (if direction = 1 then (res.set i '0', direction, seenXors, xorValue)
     else if res.get? i = some '0' then (res.set i '1', 1, seenXors, xorValue)
     else (res, direction, seenXors, xorValue))
  else if c = '^' then
    (let s1 := seenXors + direction
     if direction = 1 then
       if s1 = nXor ∧ xorValue = 0 then (res.set i '1', direction, s1, xorValue ^^^ 1)
       else (res.set i '0', direction, s1, xorValue)
     else
       if res.get? i = some '0' ∧ s1 < nXor - 1 then
         (res.set i '1', 1, s1 + 1, xorValue ^^^ 1)
       else if res.get? i = some '1' then (res, direction, s1, xorValue ^^^ 1)
       else (res, direction, s1, xorValue))
  else if c = '~' then
    (let s1 := seenXors + direction
     if direction = 1 then
       if s1 = nXor ∧ xorValue = 1 then (res.set i '1', direction, s1, xorValue ^^^ 1)
       else (res.set i '0', direction, s1, xorValue)
     else
       if res.get? i = some '0' ∧ s1 < nXor - 1 then
         (res.set i '1', 1, s1 + 1, xorValue ^^^ 1)
       else if res.get? i = some '1' then (res, direction, s1, xorValue ^^^ 1)
       else (res, direction, s1, xorValue))
  else
    (res.set i '#', direction, seenXors, xorValue)

/-- The while i >= 0 loop of permutations.  Each fuel step is one loop
iteration.  Reading value[i] out of range is .err (IndexError); a generated
string that int(-, base=2) cannot parse is .err (ValueError). -/
def permLoop (value : Str) (exInts : List Nat) (nBits : Nat) (nXor : Int) :
    Nat → List Char → Int → Int → Int → Nat → List Str → PRes (List Str)
  | 0, _, _, _, _, _, _ => .spin
  | fuel + 1, res, i, direction, seenXors, xorValue, result =>
    if i < 0 then .out result
    else
      match value.get? i.toNat with
      | none => .err
      | some c =>
        match permBody c res i.toNat direction seenXors nXor xorValue with
        | (res1, dir1, seen1, xv1) =>
          let i1 := i + dir1
          if i1 = (nBits : Int) then
            match parseBin res1 with
            | none => .err
            | some v =>
              let result1 := if exInts.contains v then result else insertStr res1 result
              permLoop value exInts nBits nXor fuel res1 ((nBits : Int) - 1) (-1) seen1 xv1 result1
          else
            permLoop value exInts nBits nXor fuel res1 i1 dir1 seen1 xv1 result

/-- The set comprehension building exclude_int: a base-10 parse of every
member of the exclusion set. -/
def parseDecList : List Str → Option (List Nat)
  | [] => some []
  | e :: es =>
    match parseDec e, parseDecList es with
    | some v, some vs => some (v :: vs)
    | _, _ => none

/-- permutations(value, exclude).  Note the exclusion set is converted with
int(e) -- a base-10 parse -- while generated strings are tested through their
base-2 value int(bitstring, base=2). -/
def permutations (fuel : Nat) (value : Str) (exclude : List Str) : PRes (List Str) :=
  match parseDecList exclude with
  | none => .err
  | some exInts =>
    permLoop value exInts value.length ((countC value '^' + countC value '~' : Nat) : Int)
      fuel (List.replicate value.length '0') 0 1 0 0 []

/-! ## Prime implicant engine: get_prime_implicants -/

/-- Profiled result wrapper (class ResultWithProfile). -/
structure ResultWithProfile where
  result : Option (List Str)
  profile_cmp : Nat
  profile_xor : Nat
  profile_xnor : Nat
deriving DecidableEq, Repr

/-- The ResultWithProfile.none sentinel: no result, zero counters. -/
def RWPnone : ResultWithProfile := ⟨none, 0, 0, 0⟩

/-- The grouping key (count of 1s, count of carets, count of tildes). -/
def keyOf (t : Str) : Nat × Nat × Nat := (countC t '1', countC t '^', countC t '~')

/-- groups[k]: the terms with key k (the canonical term list filtered). -/
def groupG (terms : List Str) (k : Nat × Nat × Nat) : List Str :=
  terms.filter (fun t => keyOf t == k)

/-- The keys present in the grouping dict (first-occurrence order; every use
below is order-independent). -/
def keysOf (terms : List Str) : List (Nat × Nat × Nat) :=
  terms.foldl (fun acc t => if acc.contains (keyOf t) then acc else acc ++ [keyOf t]) []

/-- Indices i with t[i] = '0' (the probed positions of the merge loops). -/
def zeroIdx (t : Str) : List Nat :=
  (List.range t.length).filter (fun i => t.get? i == some '0')

/-- XOR / XNOR seeding additions of get_prime_implicants: for every popcount
group, all pairwise simple-XOR reductions inside the group and all pairwise
simple-XNOR reductions against the group two levels up. -/
def seedAdds (nBits : Nat) (terms : List Str) : List Str :=
  (List.range (nBits + 1)).flatMap (fun gi =>
    let group := terms.filter (fun t => countC t '1' == gi)
    group.flatMap (fun t1 =>
      (group.filterMap (fun t2 => reduce_simple_xor_terms t1 t2)) ++
      (if gi < nBits - 1 then
        (terms.filter (fun t => countC t '1' == gi + 2)).filterMap
          (fun t2 => reduce_simple_xnor_terms t1 t2)
       else [])))

/-- terms after the use_xor seeding phase. -/
def seedTerms (nBits : Nat) (terms : List Str) : List Str :=
  unionS terms (listToSet (seedAdds nBits terms))

/-- Hits of the adjacent-AND merge of one round: (t1, t2, t12) such that t1
has '0' at some i, t2 = t1 with that position set to '1' lies in the next
group, and t12 is t1 with that position dashed. -/
def andHits (terms : List Str) (keys : List (Nat × Nat × Nat)) :
    List (Str × Str × Str) :=
  keys.flatMap (fun k =>
    if keys.contains (k.1 + 1, k.2.1, k.2.2) then
      (groupG terms k).flatMap (fun t1 =>
        (zeroIdx t1).filterMap (fun i =>
          let t2 := setPos t1 i '1'
          if (groupG terms (k.1 + 1, k.2.1, k.2.2)).contains t2 then
            some (t1, t2, setPos t1 i '-')
          else none))
    else [])

/-- Probe count of the adjacent-AND merge (the profile_cmp increment). -/
def andCmpCount (terms : List Str) (keys : List (Nat × Nat × Nat)) : Nat :=
  keys.foldl (fun n k =>
    if keys.contains (k.1 + 1, k.2.1, k.2.2) then
      n + ((groupG terms k).foldl (fun m t1 => m + countC t1 '0') 0)
    else n) 0

/-- Hits of the XOR promotion: (t1, t12) where t1 lies in a bucket with a
caret, its caret-to-tilde complement with one '0' flipped to '1' lies in the
complement bucket, and t12 carets that position. -/
def xorHits (terms : List Str) (keys : List (Nat × Nat × Nat)) :
    List (Str × Str) :=
  keys.flatMap (fun k =>
    if k.2.1 > 0 ∧ keys.contains (k.1 + 1, k.2.2, k.2.1) then
      (groupG terms k).flatMap (fun t1 =>
        let t1c := t1.map (fun c => if c = '^' then '~' else c)
        (zeroIdx t1).filterMap (fun i =>
          if (groupG terms (k.1 + 1, k.2.2, k.2.1)).contains (setPos t1c i '1') then
            some (t1, setPos t1 i '^')
          else none))
    else [])

/-- Probe count of the XOR promotion (the profile_xor increment). -/
def xorCmpCount (terms : List Str) (keys : List (Nat × Nat × Nat)) : Nat :=
  keys.foldl (fun n k =>
    if k.2.1 > 0 ∧ keys.contains (k.1 + 1, k.2.2, k.2.1) then
      n + ((groupG terms k).foldl (fun m t1 => m + countC t1 '0') 0)
    else n) 0

/-- Hits of the XNOR promotion (symmetric, with the same complement-key
formula (ones+1, xnor, xor) as the XOR loop). -/
def xnorHits (terms : List Str) (keys : List (Nat × Nat × Nat)) :
    List (Str × Str) :=
  keys.flatMap (fun k =>
    if k.2.2 > 0 ∧ keys.contains (k.1 + 1, k.2.2, k.2.1) then
      (groupG terms k).flatMap (fun t1 =>
        let t1c := t1.map (fun c => if c = '~' then '^' else c)
        (zeroIdx t1).filterMap (fun i =>
          if (groupG terms (k.1 + 1, k.2.2, k.2.1)).contains (setPos t1c i '1') then
            some (t1, setPos t1 i '~')
          else none))
    else [])

/-- Probe count of the XNOR promotion (the profile_xnor increment). -/
def xnorCmpCount (terms : List Str) (keys : List (Nat × Nat × Nat)) : Nat :=
  keys.foldl (fun n k =>
    if k.2.2 > 0 ∧ keys.contains (k.1 + 1, k.2.2, k.2.1) then
      n + ((groupG terms k).foldl (fun m t1 => m + countC t1 '0') 0)
    else n) 0

/-- The new terms created in one round. -/
def roundNew (terms : List Str) (keys : List (Nat × Nat × Nat)) : List Str :=
  listToSet ((andHits terms keys).map (fun h => h.2.2) ++
    (xorHits terms keys).map (fun h => h.2) ++
    (xnorHits terms keys).map (fun h => h.2))

/-- The terms consumed in one round (both operands for AND merges, only t1
for the promotions). -/
def roundUsed (terms : List Str) (keys : List (Nat × Nat × Nat)) : List Str :=
  listToSet ((andHits terms keys).flatMap (fun h => [h.1, h.2.1]) ++
    (xorHits terms keys).map (fun h => h.1) ++
    (xnorHits terms keys).map (fun h => h.1))

/-- The iterative while-loop of get_prime_implicants.  The assert that no
term mixes carets and tildes is modelled as .err. -/
def piLoop : Nat → List Str → List Str → Nat → Nat → Nat → PRes ResultWithProfile
  | 0, _, _, _, _, _ => .spin
  | fuel + 1, terms, marked, cmp, xr, xn =>
    if terms.any (fun t => countC t '^' > 0 && countC t '~' > 0) then .err
    else
      let keys := keysOf terms
      let nw := roundNew terms keys
      let used := roundUsed terms keys
      let cmp1 := cmp + andCmpCount terms keys
      let xr1 := xr + xorCmpCount terms keys
      let xn1 := xn + xnorCmpCount terms keys
      let marked1 := unionS marked (terms.filter (fun t => !(used.contains t)))
      if used.isEmpty then .out ⟨some (unionS marked1 terms), cmp1, xr1, xn1⟩
      else piLoop fuel nw marked1 cmp1 xr1 xn1

/-- get_prime_implicants(n_bits, use_xor, terms).  Putting a term with more
1s than n_bits into groups_1 raises IndexError, modelled as .err. -/
def get_prime_implicants (fuel nBits : Nat) (useXor : Bool) (terms : List Str) :
    PRes ResultWithProfile :=
  if terms.any (fun t => countC t '1' > nBits) then .err
  else
    let terms1 := if useXor then seedTerms nBits terms else terms
    piLoop fuel terms1 [] 0 0 0

/-! ## Essential implicant selector -/

/-- get_term_rank(term, term_range). -/
def get_term_rank (term : Str) (termRange : Nat) : Nat :=
  4 * termRange +
    term.foldl (fun n t =>
      if t = '-' then n + 8
      else if t = '^' then n + 4
      else if t = '~' then n + 2
      else if t = '1' then n + 1
      else n) 0

/-- The perms dict of get_essential_implicants: for each term its
permutations with the don't-care strings filtered out by string membership
(note: unlike combine_implicants, the exclusion here is a genuine string
set difference). -/
def permsFor (fuel : Nat) (dc : List Str) : List Str → PRes (List (Str × List Str))
  | [] => pure []
  | t :: ts => do
    let ps ← permutations fuel t []
    let rest ← permsFor fuel dc ts
    pure ((t, ps.filter (fun p => !(dc.contains p))) :: rest)

/-- Lookup in the perms dict. -/
def permsOf (pm : List (Str × List Str)) (t : Str) : List Str :=
  match pm.find? (fun kv => kv.1 == t) with
  | some kv => kv.2
  | none => []

/-- Insertion into a descending-sorted list of naturals. -/
def insertNatDesc (n : Nat) : List Nat → List Nat
  | [] => [n]
  | m :: ms => if n > m then n :: m :: ms else if n = m then m :: ms else m :: insertNatDesc n ms

/-- The greedy cover of get_essential_implicants: visit the rank classes in
descending rank order, their members in descending string order, and keep a
term iff its coverage is not yet contained in the running range. -/
def essentialGreedy (pm : List (Str × List Str)) (terms : List Str) : List Str :=
  let ranks := terms.foldl (fun acc t1 => insertNatDesc (get_term_rank t1 (permsOf pm t1).length) acc) []
  (ranks.foldl
    (fun (acc : List Str × List Str) rk =>
      ((terms.filter (fun t1 => get_term_rank t1 (permsOf pm t1).length == rk)).reverse.foldl
        (fun acc2 g =>
          if (permsOf pm g).all (fun p => acc2.2.contains p) then acc2
          else (insertStr g acc2.1, unionS acc2.2 (permsOf pm g)))
        acc))
    ([], [])).1

/-- get_essential_implicants(n_bits, terms, dc). -/
def get_essential_implicants (fuel nBits : Nat) (terms dc : List Str) : PRes (List Str) := do
  let pm ← permsFor fuel dc terms
  let ei := essentialGreedy pm terms
  pure (if ei.isEmpty then [List.replicate nBits '-'] else ei)

/-! ## Implicant reducer -/

/-- complexity scaled by 4 to stay in Nat: weights 1.00, 1.50, 1.25, 1.75
become 4, 6, 5, 7.  Only comparisons of complexities are ever used. -/
def complexity4 (t : Str) : Nat :=
  4 * countC t '1' + 6 * countC t '0' + 5 * countC t '^' + 7 * countC t '~'

/-- a with every '-' position replaced by b's character at the same index
(the a_potential constructions); none models the IndexError raised when some
dash position of a lies beyond the end of b. -/
def fillDashes : Str → Str → Option Str
  | [], _ => some []
  | c :: as, [] =>
    if c = '-' then none
    else
      match fillDashes as [] with
      | some r => some (c :: r)
      | none => none
  | c :: as, b :: bs =>
    if c = '-' then
      match fillDashes as bs with
      | some r => some (b :: r)
      | none => none
    else
      match fillDashes as bs with
      | some r => some (c :: r)
      | none => none

/-- combine_implicants(a, b, dc). -/
def combine_implicants (fuel : Nat) (a b : Str) (dc : List Str) : PRes (Option Str) := do
  let pa ← permutations fuel a dc
  let pb ← permutations fuel b dc
  match fillDashes a b, fillDashes b a with
  | some aPot, some bPot => do
    let u := unionS pa pb
    let qa ← permutations fuel aPot dc
    let qb ← permutations fuel bPot dc
    match (if qa == u then [aPot] else []) ++ (if qb == u then [bPot] else []) with
    | [] => pure none
    | [x] => pure (some x)
    | x :: y :: _ => pure (some (if complexity4 x ≤ complexity4 y then x else y))
  | _, _ => .err

/-- Scan of the inner pairs (a fixed first operand) of the orthogonal-merge
loop; the first successful combination wins.  An empty-string replacement is
falsy in Python and is skipped. -/
def scanPairsB (fuel : Nat) (dc : List Str) (a : Str) : List Str → PRes (Option (Str × Str))
  | [] => pure none
  | b :: rest => do
    match ← combine_implicants fuel a b dc with
    | some repl =>
      if repl.isEmpty then scanPairsB fuel dc a rest else pure (some (b, repl))
    | none => scanPairsB fuel dc a rest

/-- Scan of itertools.combinations(implicants, 2) in order. -/
def scanPairs (fuel : Nat) (dc : List Str) : List Str → PRes (Option (Str × Str × Str))
  | [] => pure none
  | a :: rest => do
    match ← scanPairsB fuel dc a rest with
    | some (b, repl) => pure (some (a, b, repl))
    | none => scanPairs fuel dc rest

/-- Phase 1 of reduce_implicants: repeatedly replace the first combinable
pair until no pair combines. -/
def phase1 (pf : Nat) (dc : List Str) : Nat → List Str → PRes (List Str)
  | 0, _ => .spin
  | fuel + 1, imps => do
    match ← scanPairs pf dc imps with
    | none => pure imps
    | some (a, b, repl) => phase1 pf dc fuel (insertStr repl ((imps.erase a).erase b))

/-- Coverage of the others: the union of the coverage sets of every key
different from t. -/
def othersUnion (cov : List (Str × List Str)) (t : Str) : List Str :=
  listToSet ((cov.filter (fun kv => kv.1 ≠ t)).flatMap (fun kv => kv.2))

/-- Coverage lookup. -/
def covOf (cov : List (Str × List Str)) (t : Str) : List Str :=
  match cov.find? (fun kv => kv.1 == t) with
  | some kv => kv.2
  | none => []

/-- Phase 2 of reduce_implicants: repeatedly delete the worst redundant
implicant (the first one of maximal complexity); if everything goes, the
tautology of n_bits dashes is returned. -/
def phase2 (nBits : Nat) : Nat → List (Str × List Str) → PRes (List Str)
  | 0, _ => .spin
  | fuel + 1, cov =>
    let redundant := (cov.map (fun kv => kv.1)).filter (fun t =>
      (covOf cov t).all (fun n => (othersUnion cov t).contains n))
    match redundant with
    | [] =>
      if cov.isEmpty then pure [List.replicate nBits '-']
      else pure (cov.map (fun kv => kv.1))
    | _ :: _ =>
      let mx := (redundant.map complexity4).foldl Nat.max 0
      match redundant.find? (fun t => complexity4 t == mx) with
      | some worst => phase2 nBits fuel (cov.filter (fun kv => kv.1 ≠ worst))
      | none => .err

/-- The coverage dict of phase 2: for each implicant its permutations with
the don't cares removed by string membership. -/
def covList (fuel : Nat) (dc : List Str) : List Str → PRes (List (Str × List Str))
  | [] => pure []
  | t :: ts => do
    let ps ← permutations fuel t []
    let rest ← covList fuel dc ts
    pure ((t, ps.filter (fun n => !(dc.contains n))) :: rest)

/-- reduce_implicants(n_bits, implicants, dc). -/
def reduce_implicants (fuel nBits : Nat) (implicants dc : List Str) : PRes (List Str) := do
  let imps ← phase1 fuel dc fuel implicants
  let cov ← covList fuel dc imps
  phase2 nBits fuel cov

/-! ## Drivers -/

/-- The pipeline shared by the drivers once n_bits is fixed: prime
implicants, essential implicants, reduction. -/
def simplifyCore (fuel nB : Nat) (terms dc : List Str) (useXor : Bool) :
    PRes ResultWithProfile := do
  let pi ← get_prime_implicants fuel nB useXor terms
  match pi.result with
  | none => .err
  | some piSet => do
    let ei ← get_essential_implicants fuel nB piSet (listToSet dc)
    let red ← reduce_implicants fuel nB ei (listToSet dc)
    pure ⟨some red, pi.profile_cmp, pi.profile_xor, pi.profile_xnor⟩

/-- Maximum length of the members of a list of strings (max on a non-empty
generator in Python; the call sites guard non-emptiness). -/
def maxLenL (l : List Str) : Nat := l.foldl (fun m s => Nat.max m s.length) 0

/-- Minimum length of the members of a non-empty list of strings. -/
def minLenL : List Str → Nat
  | [] => 0
  | s :: rest => rest.foldl (fun m t => Nat.min m t.length) s.length

/-- simplify_los_with_profile(ones, dc, num_bits, use_xor).  The length
consistency check only runs when num_bits is None. -/
def simplify_los_with_profile (fuel : Nat) (ones dc : List Str)
    (numBits : Option Nat) (useXor : Bool) : PRes ResultWithProfile :=
  let terms := unionS (listToSet ones) (listToSet dc)
  if terms.isEmpty then .out RWPnone
  else
    match numBits with
    | some n => simplifyCore fuel n terms dc useXor
    | none =>
      let nB := maxLenL terms
      if nB ≠ minLenL terms then .out RWPnone
      else simplifyCore fuel nB terms dc useXor

/-- Fuelled binary length: bitLenAux fuel n is the number of binary digits
of n as long as fuel bounds that number. -/
def bitLenAux : Nat → Nat → Nat
  | 0, _ => 0
  | fuel + 1, n => if n = 0 then 0 else bitLenAux fuel (n / 2) + 1

/-- The number of binary digits of n, which equals ceil(log2 (n + 1)). -/
def bitLen (n : Nat) : Nat := bitLenAux n n

/-- simplify_with_profile(ones, dc, num_bits, use_xor).  The bit width for
None is int(ceil(log(max + 1, 2))), modelled as the exact ceiling logarithm
bitLen max = ceil(log2 (max + 1)); the model is exact at every input
evaluated in this development (in particular max = 0, where math.log(1, 2)
is exactly 0.0).  Note the original num_bits argument, not the computed
width, is forwarded to simplify_los_with_profile. -/
def simplify_with_profile (fuel : Nat) (ones dc : List Nat)
    (numBits : Option Nat) (useXor : Bool) : PRes ResultWithProfile :=
  if ones.isEmpty && dc.isEmpty then .out RWPnone
  else
    let nB := match numBits with
      | some n => n
      | none => bitLen ((ones ++ dc).foldl Nat.max 0)
    simplify_los_with_profile fuel (ones.map (num2str nB)) (dc.map (num2str nB)) numBits useXor

/-- simplify(ones, dc, num_bits, use_xor): the .result projection. -/
def simplify (fuel : Nat) (ones dc : List Nat) (numBits : Option Nat)
    (useXor : Bool) : PRes (Option (List Str)) :=
  match simplify_with_profile fuel ones dc numBits useXor with
  | .out r => .out r.result
  | .err => .err
  | .spin => .spin

/-- simplify_los(ones, dc, num_bits, use_xor): the .result projection. -/
def simplify_los (fuel : Nat) (ones dc : List Str) (numBits : Option Nat)
    (useXor : Bool) : PRes (Option (List Str)) :=
  match simplify_los_with_profile fuel ones dc numBits useXor with
  | .out r => .out r.result
  | .err => .err
  | .spin => .spin

/-! ## Declarative specification-side definitions

These definitions state the properties the claims talk about; they follow
the data model of the specification (section 3) and are only used in theorem
statements and proofs, never by the executable model above. -/

/-- Parity (as a boolean: true = odd) of the bits of s lying at the
positions where t carries the marker character m. -/
def parityMark (t s : Str) (m : Char) : Bool :=
  (t.zip s).foldl (fun b p => if p.1 = m ∧ p.2 = '1' then !b else b) false

/-- The concretization predicate of the specification: s is one of the pure
bitstrings represented by the implicant t.  Fixed positions must match, all
other positions of s hold '0' or '1', the caret positions have odd parity
when carets exist, the tilde positions have even parity when tildes exist. -/
def concretizes (t s : Str) : Bool :=
  s.length == t.length &&
  ((t.zip s).all (fun p =>
    if p.1 = '0' ∨ p.1 = '1' then p.2 == p.1 else p.2 == '0' || p.2 == '1')) &&
  (!(t.contains '^') || parityMark t s '^') &&
  (!(t.contains '~') || !(parityMark t s '~'))

/-- A pure bitstring: only '0' and '1'. -/
def pureBS (t : Str) : Bool := t.all (fun c => c = '0' || c = '1')

/-- A pure AND-implicant: only '0', '1' and '-'. -/
def pureAnd (t : Str) : Bool := t.all (fun c => c = '0' || c = '1' || c = '-')

/-- An all-dash implicant (the tautology fallback has this shape). -/
def allDash (t : Str) : Bool := t.all (fun c => c = '-')

/-- MSB-first binary value of a bitstring (specification-side; used to state
the num2str characterization). -/
def str2num (s : Str) : Nat :=
  s.foldl (fun n c => 2 * n + (if c = '1' then 1 else 0)) 0

/-- The success condition of reduce_simple_xor_terms as the code implements
it: among the positions where the operands differ there is exactly one where
t2 holds '0' and exactly one where t2 holds a character other than '0'. -/
def xorCondition (t1 t2 : Str) : Bool :=
  ((t1.zip t2).countP (fun p => p.1 ≠ p.2 ∧ p.2 = '0') == 1) &&
  ((t1.zip t2).countP (fun p => p.1 ≠ p.2 ∧ p.2 ≠ '0') == 1)

/-- No operand character is an operator. -/
def noOps (t : Str) : Bool := t.all (fun c => c ≠ '^' && c ≠ '~')

/-- The merge pattern of the XOR reducer: matching positions copied from t1,
mismatching positions replaced by a caret. -/
def xorMergePattern (t1 t2 : Str) : Str :=
  (t1.zip t2).map (fun p => if p.1 = p.2 then p.1 else '^')

/-- Number of differing positions where t2 holds '1' (the quantity the
original claim C6 speaks about). -/
def diffT2One (t1 t2 : Str) : Nat :=
  (t1.zip t2).countP (fun p => p.1 ≠ p.2 ∧ p.2 = '1')

/-- Pointwise admissibility of bit b against implicant character c (the
per-position content of concretizes). -/
def charOK (c b : Char) : Bool :=
  if c = '0' ∨ c = '1' then b == c else b == '0' || b == '1'

/-- Every concretization of t lies in S. -/
def ConcSub (S : List Str) (t : Str) : Prop :=
  ∀ s, concretizes t s = true → s ∈ S

/-- The width simplify_with_profile works with (num_bits when given, the
ceiling base-2 logarithm of max + 1 otherwise). -/
def drvWidth (ones dc : List Nat) (numBits : Option Nat) : Nat :=
  match numBits with
  | some n => n
  | none => bitLen ((ones ++ dc).foldl Nat.max 0)

/-! ## Theorems.  First, membership facts about the canonical set model. -/

theorem mem_insertStr {x s : Str} : ∀ {l : List Str}, x ∈ insertStr s l ↔ x = s ∨ x ∈ l := by
  intro l
  induction l with
  | nil => simp [insertStr]
  | cons t ts ih =>
    simp only [insertStr]
    by_cases h1 : strLt s t = true
    · rw [if_pos h1]
      simp only [List.mem_cons]
    · rw [if_neg h1]
      by_cases h2 : s = t
      · subst h2
        rw [if_pos rfl]
        simp only [List.mem_cons]
        tauto
      · rw [if_neg h2]
        simp only [List.mem_cons, ih]
        tauto

theorem mem_foldl_insert {x : Str} :
    ∀ {l acc : List Str}, x ∈ l.foldl (fun a s => insertStr s a) acc ↔ x ∈ acc ∨ x ∈ l := by
  intro l
  induction l with
  | nil => simp
  | cons s ss ih =>
    intro acc
    simp only [List.foldl_cons]
    rw [ih]
    simp only [mem_insertStr, List.mem_cons]
    tauto

theorem mem_listToSet {x : Str} {l : List Str} : x ∈ listToSet l ↔ x ∈ l := by
  simp [listToSet, mem_foldl_insert]

theorem mem_unionS {x : Str} {a b : List Str} : x ∈ unionS a b ↔ x ∈ a ∨ x ∈ b := by
  simp [unionS, mem_foldl_insert]

/-! ## Character-count facts -/

theorem countC_shift (c : Char) : ∀ (t : Str) (n : Nat),
    t.foldl (fun n d => if d = c then n + 1 else n) n =
      n + t.foldl (fun n d => if d = c then n + 1 else n) 0 := by
  intro t
  induction t with
  | nil => intro n; simp
  | cons d t ih =>
    intro n
    rw [List.foldl_cons, List.foldl_cons]
    by_cases h : d = c
    · rw [if_pos h, if_pos h, ih (n + 1), ih (0 + 1)]
      omega
    · rw [if_neg h, if_neg h, ih n]

theorem countC_cons (c d : Char) (t : Str) :
    countC (d :: t) c = (if d = c then 1 else 0) + countC t c := by
  show List.foldl _ 0 (d :: t) = _
  rw [List.foldl_cons]
  by_cases h : d = c
  · rw [if_pos h]
    exact countC_shift c t (0 + 1)
  · rw [if_neg h, Nat.zero_add]
    rfl

theorem countC_eq_zero {t : Str} {c : Char} (h : ∀ d ∈ t, d ≠ c) : countC t c = 0 := by
  induction t with
  | nil => simp [countC]
  | cons d ts ih =>
    rw [countC_cons]
    have hd : d ≠ c := h d (by simp)
    rw [if_neg hd]
    simp only [Nat.zero_add]
    exact ih (fun x hx => h x (by simp [hx]))

theorem pureBS_chars {t : Str} (h : pureBS t = true) :
    ∀ c ∈ t, c = '0' ∨ c = '1' := by
  intro c hc
  simp only [pureBS, List.all_eq_true] at h
  have := h c hc
  simpa using this

theorem pureAnd_chars {t : Str} (h : pureAnd t = true) :
    ∀ c ∈ t, c = '0' ∨ c = '1' ∨ c = '-' := by
  intro c hc
  simp only [pureAnd, List.all_eq_true] at h
  have h1 := h c hc
  have h2 : (c = '0' ∨ c = '1') ∨ c = '-' := by simpa using h1
  tauto

theorem pureBS_pureAnd {t : Str} (h : pureBS t = true) : pureAnd t = true := by
  simp only [pureAnd, List.all_eq_true]
  intro c hc
  rcases pureBS_chars h c hc with h0 | h0 <;> subst h0 <;> decide

theorem pureAnd_noOps {t : Str} (h : pureAnd t = true) : noOps t = true := by
  simp only [noOps, List.all_eq_true]
  intro c hc
  rcases pureAnd_chars h c hc with h0 | h0 | h0 <;> subst h0 <;> decide

theorem pureAnd_noCaret {t : Str} (h : pureAnd t = true) : countC t '^' = 0 := by
  apply countC_eq_zero
  intro d hd
  rcases pureAnd_chars h d hd with h0 | h0 | h0 <;> subst h0 <;> decide

theorem pureAnd_noTilde {t : Str} (h : pureAnd t = true) : countC t '~' = 0 := by
  apply countC_eq_zero
  intro d hd
  rcases pureAnd_chars h d hd with h0 | h0 | h0 <;> subst h0 <;> decide

theorem pureAnd_notMem_caret {t : Str} (h : pureAnd t = true) : '^' ∉ t := by
  intro hc
  rcases pureAnd_chars h '^' hc with h0 | h0 | h0 <;> simp_all

theorem pureAnd_notMem_tilde {t : Str} (h : pureAnd t = true) : '~' ∉ t := by
  intro hc
  rcases pureAnd_chars h '~' hc with h0 | h0 | h0 <;> simp_all

/-! ## Concretization facts for pure AND-implicants -/

theorem contains_eq_false_of_not_mem {t : Str} {c : Char} (h : c ∉ t) : t.contains c = false := by
  simpa using h

theorem concretizes_pureAnd {t : Str} (h : pureAnd t = true) (s : Str) :
    concretizes t s =
      (s.length == t.length && (t.zip s).all (fun p => charOK p.1 p.2)) := by
  have hc : t.contains '^' = false := contains_eq_false_of_not_mem (pureAnd_notMem_caret h)
  have ht : t.contains '~' = false := contains_eq_false_of_not_mem (pureAnd_notMem_tilde h)
  simp only [concretizes, hc, ht, Bool.not_false, Bool.true_or, Bool.and_true, charOK]

theorem conc_length {t s : Str} (h : concretizes t s = true) : s.length = t.length := by
  simp only [concretizes, Bool.and_eq_true, beq_iff_eq] at h
  exact h.1.1.1

theorem charOK_pure {c b : Char} (hc : c = '0' ∨ c = '1') :
    charOK c b = (b == c) := by
  simp [charOK, hc]

theorem charOK_bit {c b : Char} (hc : c = '0' ∨ c = '1' ∨ c = '-')
    (h : charOK c b = true) : b = '0' ∨ b = '1' := by
  rcases hc with h0 | h0 | h0 <;> subst h0 <;> simp [charOK] at h <;> simp [h]

theorem conc_self {t : Str} (h : pureBS t = true) :
    ∀ s, concretizes t s = true ↔ s = t := by
  induction t with
  | nil =>
    intro s
    rw [concretizes_pureAnd (pureBS_pureAnd h)]
    cases s <;> simp
  | cons c ts ih =>
    intro s
    have hts : pureBS ts = true := by
      simp only [pureBS, List.all_eq_true] at h ⊢
      exact fun x hx => h x (by simp [hx])
    have hc : c = '0' ∨ c = '1' := pureBS_chars h c (by simp)
    rw [concretizes_pureAnd (pureBS_pureAnd h)]
    cases s with
    | nil => simp
    | cons b s' =>
      have hrec := ih hts s'
      rw [concretizes_pureAnd (pureBS_pureAnd hts)] at hrec
      simp only [List.length_cons, List.zip_cons_cons, List.all_cons, Bool.and_eq_true,
        beq_iff_eq, List.cons.injEq] at hrec ⊢
      rw [charOK_pure hc]
      constructor
      · rintro ⟨h1, h2, h3⟩
        have hb : b = c := by simpa using h2
        exact ⟨hb, hrec.mp ⟨by omega, h3⟩⟩
      · rintro ⟨h1, h2⟩
        have := hrec.mpr h2
        exact ⟨by omega, by simp [h1], this.2⟩

theorem pureAnd_set {t : Str} (h : pureAnd t = true) {i : Nat} {c : Char}
    (hc : c = '0' ∨ c = '1' ∨ c = '-') : pureAnd (t.set i c) = true := by
  simp only [pureAnd, List.all_eq_true]
  intro d hd
  rcases List.mem_or_eq_of_mem_set hd with hmem | hd2
  · simp only [pureAnd, List.all_eq_true] at h
    exact h d hmem
  · subst hd2
    rcases hc with h0 | h0 | h0 <;> subst h0 <;> decide

theorem pureAnd_tail {b : Str} (h : pureAnd b = true) : pureAnd b.tail = true := by
  cases b with
  | nil => simpa using h
  | cons c ts =>
    simp only [pureAnd, List.all_cons, Bool.and_eq_true] at h
    simpa [pureAnd] using h.2

theorem zipAll_split : ∀ (t : Str) (i : Nat) (s : Str),
    pureAnd t = true →
    t.get? i = some '0' →
    ((t.set i '-').zip s).all (fun p => charOK p.1 p.2) = true →
    ((t.zip s).all (fun p => charOK p.1 p.2) = true ∨
      ((t.set i '1').zip s).all (fun p => charOK p.1 p.2) = true) := by
  intro t
  induction t with
  | nil => intro i s _ hi; simp at hi
  | cons c ts ih =>
    intro i s hpure hi hall
    have hts : pureAnd ts = true := by
      simp only [pureAnd, List.all_cons, Bool.and_eq_true] at hpure
      exact hpure.2
    cases i with
    | zero =>
      have hc0 : c = '0' := by simpa using hi
      subst hc0
      cases s with
      | nil => left; simp
      | cons b s' =>
        simp only [List.set_cons_zero, List.zip_cons_cons, List.all_cons,
          Bool.and_eq_true] at hall ⊢
        obtain ⟨hb, hrest⟩ := hall
        rcases charOK_bit (by tauto) hb with hb0 | hb0 <;> subst hb0
        · left
          exact ⟨by decide, hrest⟩
        · right
          exact ⟨by decide, hrest⟩
    | succ j =>
      have hij : ts.get? j = some '0' := by simpa using hi
      cases s with
      | nil => left; simp
      | cons b s' =>
        simp only [List.set_cons_succ, List.zip_cons_cons, List.all_cons,
          Bool.and_eq_true] at hall ⊢
        obtain ⟨hb, hrest⟩ := hall
        rcases ih j s' hts hij hrest with hl | hr
        · left; exact ⟨hb, hl⟩
        · right; exact ⟨hb, hr⟩

theorem conc_split {t : Str} {i : Nat} {s : Str} (h : pureAnd t = true)
    (hi : t.get? i = some '0')
    (h2 : concretizes (setPos t i '-') s = true) :
    concretizes t s = true ∨ concretizes (setPos t i '1') s = true := by
  have hset1 : pureAnd (t.set i '-') = true := pureAnd_set h (by tauto)
  have hset2 : pureAnd (t.set i '1') = true := pureAnd_set h (by tauto)
  rw [setPos, concretizes_pureAnd hset1] at h2
  rw [concretizes_pureAnd h, setPos, concretizes_pureAnd hset2]
  simp only [Bool.and_eq_true, beq_iff_eq] at h2 ⊢
  obtain ⟨hlen, hall⟩ := h2
  have hlen2 : s.length = t.length := by simpa [List.length_set] using hlen
  rcases zipAll_split t i s h hi hall with hl | hr
  · left; exact ⟨hlen2, hl⟩
  · right; exact ⟨by simpa [List.length_set] using hlen2, hr⟩

/-! ## fillDashes facts -/

theorem fillDashes_nil_right {ch : Char} {as c : Str} (hd : ch ≠ '-')
    (h : fillDashes (ch :: as) [] = some c) :
    ∃ r, fillDashes as [] = some r ∧ c = ch :: r := by
  simp only [fillDashes, if_neg hd] at h
  cases hfd : fillDashes as [] with
  | none => rw [hfd] at h; simp at h
  | some r => rw [hfd] at h; simp only [Option.some.injEq] at h; exact ⟨r, rfl, h.symm⟩

theorem fillDashes_cons_dash {as bs c : Str} {bh : Char}
    (h : fillDashes ('-' :: as) (bh :: bs) = some c) :
    ∃ r, fillDashes as bs = some r ∧ c = bh :: r := by
  have hd : ('-' : Char) = '-' := rfl
  simp only [fillDashes, if_pos hd] at h
  cases hfd : fillDashes as bs with
  | none => rw [hfd] at h; simp at h
  | some r =>
    rw [hfd] at h
    refine ⟨r, rfl, ?_⟩
    have h2 : some (bh :: r) = some c := by
      rw [← h]
      simp
    simpa using h2.symm

theorem fillDashes_cons_keep {ch : Char} {as bs c : Str} {bh : Char} (hd : ch ≠ '-')
    (h : fillDashes (ch :: as) (bh :: bs) = some c) :
    ∃ r, fillDashes as bs = some r ∧ c = ch :: r := by
  simp only [fillDashes, if_neg hd] at h
  cases hfd : fillDashes as bs with
  | none => rw [hfd] at h; simp at h
  | some r => rw [hfd] at h; simp only [Option.some.injEq] at h; exact ⟨r, rfl, h.symm⟩

theorem fillDashes_dash_nil {as : Str} {c : Str}
    (h : fillDashes ('-' :: as) [] = some c) : False := by
  simp [fillDashes] at h

theorem fillDashes_length : ∀ {a b c : Str}, fillDashes a b = some c → c.length = a.length := by
  intro a
  induction a with
  | nil => intro b c h; simp only [fillDashes, Option.some.injEq] at h; subst h; rfl
  | cons ch as ih =>
    intro b c h
    by_cases hd : ch = '-'
    · subst hd
      cases b with
      | nil => exact absurd h fillDashes_dash_nil
      | cons bh bs =>
        obtain ⟨r, hfd, hc⟩ := fillDashes_cons_dash h
        subst hc
        simp [ih hfd]
    · cases b with
      | nil =>
        obtain ⟨r, hfd, hc⟩ := fillDashes_nil_right hd h
        subst hc
        simp [ih hfd]
      | cons bh bs =>
        obtain ⟨r, hfd, hc⟩ := fillDashes_cons_keep hd h
        subst hc
        simp [ih hfd]

theorem fillDashes_pureAnd : ∀ {a b c : Str}, pureAnd a = true → pureAnd b = true →
    fillDashes a b = some c → pureAnd c = true := by
  intro a
  induction a with
  | nil =>
    intro b c _ _ h
    simp only [fillDashes, Option.some.injEq] at h
    subst h; rfl
  | cons ch as ih =>
    intro b c hpa hpb h
    have has : pureAnd as = true := pureAnd_tail hpa
    have hch : ch = '0' ∨ ch = '1' ∨ ch = '-' := pureAnd_chars hpa ch (by simp)
    by_cases hd : ch = '-'
    · subst hd
      cases b with
      | nil => exact absurd h fillDashes_dash_nil
      | cons bh bs =>
        obtain ⟨r, hfd, hc⟩ := fillDashes_cons_dash h
        subst hc
        have hbh : bh = '0' ∨ bh = '1' ∨ bh = '-' := pureAnd_chars hpb bh (by simp)
        have hr : pureAnd r = true := ih has (pureAnd_tail hpb) hfd
        simp only [pureAnd, List.all_cons, Bool.and_eq_true]
        refine ⟨?_, by simpa [pureAnd] using hr⟩
        rcases hbh with h0 | h0 | h0 <;> subst h0 <;> decide
    · cases b with
      | nil =>
        obtain ⟨r, hfd, hc⟩ := fillDashes_nil_right hd h
        subst hc
        have hr : pureAnd r = true := ih has (by decide) hfd
        simp only [pureAnd, List.all_cons, Bool.and_eq_true]
        refine ⟨?_, by simpa [pureAnd] using hr⟩
        rcases hch with h0 | h0 | h0 <;> subst h0 <;> decide
      | cons bh bs =>
        obtain ⟨r, hfd, hc⟩ := fillDashes_cons_keep hd h
        subst hc
        have hr : pureAnd r = true := ih has (pureAnd_tail hpb) hfd
        simp only [pureAnd, List.all_cons, Bool.and_eq_true]
        refine ⟨?_, by simpa [pureAnd] using hr⟩
        rcases hch with h0 | h0 | h0 <;> subst h0 <;> decide

theorem zipAll_fill : ∀ {a b c : Str} (s : Str), pureAnd a = true → pureAnd b = true →
    fillDashes a b = some c →
    ((c.zip s).all (fun p => charOK p.1 p.2) = true →
      (a.zip s).all (fun p => charOK p.1 p.2) = true) := by
  intro a
  induction a with
  | nil =>
    intro b c s _ _ h
    simp only [fillDashes, Option.some.injEq] at h
    subst h
    simp
  | cons ch as ih =>
    intro b c s hpa hpb h hall
    have has : pureAnd as = true := pureAnd_tail hpa
    by_cases hd : ch = '-'
    · subst hd
      cases b with
      | nil => exact absurd h fillDashes_dash_nil
      | cons bh bs =>
        obtain ⟨r, hfd, hc⟩ := fillDashes_cons_dash h
        subst hc
        cases s with
        | nil => simp
        | cons x s' =>
          simp only [List.zip_cons_cons, List.all_cons, Bool.and_eq_true] at hall ⊢
          obtain ⟨hx, hrest⟩ := hall
          have hbh : bh = '0' ∨ bh = '1' ∨ bh = '-' := pureAnd_chars hpb bh (by simp)
          have hxbit : x = '0' ∨ x = '1' := charOK_bit hbh hx
          constructor
          · rcases hxbit with h0 | h0 <;> subst h0 <;> decide
          · exact ih s' has (pureAnd_tail hpb) hfd hrest
    · cases b with
      | nil =>
        obtain ⟨r, hfd, hc⟩ := fillDashes_nil_right hd h
        subst hc
        cases s with
        | nil => simp
        | cons x s' =>
          simp only [List.zip_cons_cons, List.all_cons, Bool.and_eq_true] at hall ⊢
          exact ⟨hall.1, ih s' has (by decide) hfd hall.2⟩
      | cons bh bs =>
        obtain ⟨r, hfd, hc⟩ := fillDashes_cons_keep hd h
        subst hc
        cases s with
        | nil => simp
        | cons x s' =>
          simp only [List.zip_cons_cons, List.all_cons, Bool.and_eq_true] at hall ⊢
          exact ⟨hall.1, ih s' has (pureAnd_tail hpb) hfd hall.2⟩

theorem fillDashes_conc {a b c : Str} (hpa : pureAnd a = true) (hpb : pureAnd b = true)
    (h : fillDashes a b = some c) :
    ∀ s, concretizes c s = true → concretizes a s = true := by
  intro s hcs
  have hpc : pureAnd c = true := fillDashes_pureAnd hpa hpb h
  rw [concretizes_pureAnd hpc] at hcs
  rw [concretizes_pureAnd hpa]
  simp only [Bool.and_eq_true, beq_iff_eq] at hcs ⊢
  obtain ⟨hlen, hall⟩ := hcs
  refine ⟨by rw [hlen, fillDashes_length h], ?_⟩
  exact zipAll_fill s hpa hpb h hall

/-! ## Round structure of the prime-implicant loop -/

theorem foldl_inv {α β : Type} {l : List α} {f : β → α → β} {P : β → Prop}
    (h : ∀ b a, a ∈ l → P b → P (f b a)) :
    ∀ {init : β}, P init → P (l.foldl f init) := by
  induction l with
  | nil => intro init hi; simpa using hi
  | cons a as ih =>
    intro init hi
    rw [List.foldl_cons]
    exact ih (fun b x hx hb => h b x (by simp [hx]) hb) (h init a (by simp) hi)

theorem flatMap_nil_of {α β : Type} {l : List α} {f : α → List β}
    (h : ∀ x ∈ l, f x = []) : l.flatMap f = [] := by
  induction l with
  | nil => rfl
  | cons a as ih =>
    rw [List.flatMap_cons, h a (by simp), ih (fun x hx => h x (by simp [hx]))]
    rfl

theorem foldl_nat_id {α : Type} {l : List α} {f : Nat → α → Nat}
    (h : ∀ n x, x ∈ l → f n x = n) : ∀ n, l.foldl f n = n := by
  induction l with
  | nil => intro n; rfl
  | cons a as ih =>
    intro n
    rw [List.foldl_cons, h n a (by simp)]
    exact ih (fun n x hx => h n x (by simp [hx])) n

theorem groupG_mem {terms : List Str} {k : Nat × Nat × Nat} {t : Str}
    (h : t ∈ groupG terms k) : t ∈ terms ∧ keyOf t = k := by
  simp only [groupG, List.mem_filter, beq_iff_eq] at h
  exact h

theorem groupG_nil_caret {terms : List Str} {k : Nat × Nat × Nat}
    (hp : ∀ t ∈ terms, pureAnd t = true) (hk : k.2.1 ≠ 0) :
    groupG terms k = [] := by
  rw [groupG, List.filter_eq_nil_iff]
  intro t ht
  simp only [beq_iff_eq]
  intro hkey
  apply hk
  rw [← hkey]
  simp only [keyOf]
  exact pureAnd_noCaret (hp t ht)

theorem groupG_nil_tilde {terms : List Str} {k : Nat × Nat × Nat}
    (hp : ∀ t ∈ terms, pureAnd t = true) (hk : k.2.2 ≠ 0) :
    groupG terms k = [] := by
  rw [groupG, List.filter_eq_nil_iff]
  intro t ht
  simp only [beq_iff_eq]
  intro hkey
  apply hk
  rw [← hkey]
  simp only [keyOf]
  exact pureAnd_noTilde (hp t ht)

theorem zeroIdx_mem {t : Str} {i : Nat} (h : i ∈ zeroIdx t) : t.get? i = some '0' := by
  simp only [zeroIdx, List.mem_filter, List.mem_range, beq_iff_eq] at h
  exact h.2

theorem andHits_mem {terms : List Str} {keys : List (Nat × Nat × Nat)}
    {h : Str × Str × Str} (hm : h ∈ andHits terms keys) :
    h.1 ∈ terms ∧ h.2.1 ∈ terms ∧
      ∃ i, h.1.get? i = some '0' ∧ h.2.1 = setPos h.1 i '1' ∧ h.2.2 = setPos h.1 i '-' := by
  simp only [andHits, List.mem_flatMap] at hm
  obtain ⟨k, _, hin⟩ := hm
  by_cases hg : keys.contains (k.1 + 1, k.2.1, k.2.2)
  · rw [if_pos hg] at hin
    simp only [List.mem_flatMap, List.mem_filterMap] at hin
    obtain ⟨t1, ht1, i, hi, hsome⟩ := hin
    by_cases hc : (groupG terms (k.1 + 1, k.2.1, k.2.2)).contains (setPos t1 i '1')
    · rw [if_pos hc] at hsome
      simp only [Option.some.injEq] at hsome
      subst hsome
      refine ⟨(groupG_mem ht1).1, ?_, i, zeroIdx_mem hi, rfl, rfl⟩
      have hex : ∃ y ∈ groupG terms (k.1 + 1, k.2.1, k.2.2), (setPos t1 i '1' == y) = true :=
        List.contains_iff_exists_mem_beq.mp hc
      obtain ⟨y, hy, hbeq⟩ := hex
      have hyy : setPos t1 i '1' = y := by simpa using hbeq
      subst hyy
      exact (groupG_mem hy).1
    · rw [if_neg hc] at hsome
      simp at hsome
  · rw [if_neg hg] at hin
    simp at hin

theorem xorHits_nil {terms : List Str} {keys : List (Nat × Nat × Nat)}
    (hp : ∀ t ∈ terms, pureAnd t = true) : xorHits terms keys = [] := by
  apply flatMap_nil_of
  intro k _
  by_cases hg : k.2.1 > 0 ∧ keys.contains (k.1 + 1, k.2.2, k.2.1)
  · rw [if_pos hg]
    rw [groupG_nil_caret hp (by omega)]
    rfl
  · rw [if_neg hg]

theorem xnorHits_nil {terms : List Str} {keys : List (Nat × Nat × Nat)}
    (hp : ∀ t ∈ terms, pureAnd t = true) : xnorHits terms keys = [] := by
  apply flatMap_nil_of
  intro k _
  by_cases hg : k.2.2 > 0 ∧ keys.contains (k.1 + 1, k.2.2, k.2.1)
  · rw [if_pos hg]
    rw [groupG_nil_tilde hp (by omega)]
    rfl
  · rw [if_neg hg]

theorem xorCmpCount_zero {terms : List Str} {keys : List (Nat × Nat × Nat)}
    (hp : ∀ t ∈ terms, pureAnd t = true) : xorCmpCount terms keys = 0 := by
  apply foldl_nat_id
  intro n k _
  by_cases hg : k.2.1 > 0 ∧ keys.contains (k.1 + 1, k.2.2, k.2.1)
  · rw [if_pos hg, groupG_nil_caret hp (by omega)]
    rfl
  · rw [if_neg hg]

theorem xnorCmpCount_zero {terms : List Str} {keys : List (Nat × Nat × Nat)}
    (hp : ∀ t ∈ terms, pureAnd t = true) : xnorCmpCount terms keys = 0 := by
  apply foldl_nat_id
  intro n k _
  by_cases hg : k.2.2 > 0 ∧ keys.contains (k.1 + 1, k.2.2, k.2.1)
  · rw [if_pos hg, groupG_nil_tilde hp (by omega)]
    rfl
  · rw [if_neg hg]

theorem roundNew_mem_pure {terms : List Str}
    (hp : ∀ t ∈ terms, pureAnd t = true) {x : Str}
    (hx : x ∈ roundNew terms (keysOf terms)) :
    ∃ t1 ∈ terms, ∃ i, t1.get? i = some '0' ∧ setPos t1 i '1' ∈ terms ∧ x = setPos t1 i '-' := by
  simp only [roundNew] at hx
  rw [xorHits_nil hp, xnorHits_nil hp] at hx
  simp only [mem_listToSet, List.mem_append, List.mem_map, List.map_nil,
    List.not_mem_nil, or_false, exists_prop] at hx
  obtain ⟨h, hmem, hval⟩ := hx
  obtain ⟨h1, h2, i, hi, hset1, hset2⟩ := andHits_mem hmem
  exact ⟨h.1, h1, i, hi, hset1 ▸ h2, by rw [← hval, hset2]⟩

theorem roundUsed_sub_pure {terms : List Str}
    (hp : ∀ t ∈ terms, pureAnd t = true) {x : Str}
    (hx : x ∈ roundUsed terms (keysOf terms)) : x ∈ terms := by
  simp only [roundUsed] at hx
  rw [xorHits_nil hp, xnorHits_nil hp] at hx
  simp only [mem_listToSet, List.mem_append, List.mem_flatMap, List.mem_map, List.map_nil,
    List.not_mem_nil, or_false, exists_prop] at hx
  obtain ⟨h, hmem, hval⟩ := hx
  obtain ⟨h1, h2, _, _, _, _⟩ := andHits_mem hmem
  simp only [List.mem_cons, List.not_mem_nil, or_false] at hval
  rcases hval with hval | hval <;> subst hval
  · exact h1
  · exact h2

theorem mixedAny_false {terms : List Str}
    (hp : ∀ t ∈ terms, pureAnd t = true) :
    terms.any (fun t => countC t '^' > 0 && countC t '~' > 0) = false := by
  rw [List.any_eq_false]
  intro t ht
  simp [pureAnd_noCaret (hp t ht)]

theorem piLoop_inv {S : List Str} :
    ∀ (fuel : Nat) (terms marked : List Str) (cmp xr xn : Nat) (r : ResultWithProfile),
    (∀ t ∈ terms, pureAnd t = true ∧ ConcSub S t) →
    (∀ t ∈ marked, pureAnd t = true ∧ ConcSub S t) →
    piLoop fuel terms marked cmp xr xn = .out r →
    (∀ pi, r.result = some pi → ∀ t ∈ pi, pureAnd t = true ∧ ConcSub S t) ∧
      r.profile_xor = xr ∧ r.profile_xnor = xn := by
  intro fuel
  induction fuel with
  | zero =>
    intro terms marked cmp xr xn r _ _ h
    simp [piLoop] at h
  | succ fl ih =>
    intro terms marked cmp xr xn r hterms hmarked h
    have hpure : ∀ t ∈ terms, pureAnd t = true := fun t ht => (hterms t ht).1
    simp only [piLoop] at h
    rw [if_neg (by rw [mixedAny_false hpure]; simp)] at h
    rw [xorCmpCount_zero hpure, xnorCmpCount_zero hpure, Nat.add_zero, Nat.add_zero] at h
    have hmarked1 : ∀ t ∈ unionS marked (terms.filter
        (fun t => !((roundUsed terms (keysOf terms)).contains t))),
        pureAnd t = true ∧ ConcSub S t := by
      intro t ht
      rcases mem_unionS.mp ht with hm | hm
      · exact hmarked t hm
      · exact hterms t (List.mem_filter.mp hm).1
    by_cases hu : (roundUsed terms (keysOf terms)).isEmpty = true
    · rw [if_pos hu] at h
      cases h
      refine ⟨?_, rfl, rfl⟩
      intro pi hpi t ht
      simp only [Option.some.injEq] at hpi
      subst hpi
      rcases mem_unionS.mp ht with hm | hm
      · exact hmarked1 t hm
      · exact hterms t hm
    · rw [if_neg hu] at h
      have hnew : ∀ t ∈ roundNew terms (keysOf terms), pureAnd t = true ∧ ConcSub S t := by
        intro x hx
        obtain ⟨t1, ht1, i, hi, ht2, hval⟩ := roundNew_mem_pure hpure hx
        subst hval
        constructor
        · exact pureAnd_set (hpure t1 ht1) (by tauto)
        · intro s hs
          rcases conc_split (hpure t1 ht1) hi hs with hc | hc
          · exact (hterms t1 ht1).2 s hc
          · exact (hterms _ ht2).2 s hc
      exact ih _ _ _ _ _ _ hnew hmarked1 h

theorem PRes_bind_out {α β : Type} {x : PRes α} {f : α → PRes β} {r : β}
    (h : x >>= f = .out r) : ∃ a, x = .out a ∧ f a = .out r := by
  cases x with
  | out a => exact ⟨a, rfl, h⟩
  | err => exact absurd h (by intro hh; exact PRes.noConfusion hh)
  | spin => exact absurd h (by intro hh; exact PRes.noConfusion hh)

theorem get_prime_inv {fuel nB : Nat} {terms : List Str} {r : ResultWithProfile}
    (hp : ∀ t ∈ terms, pureBS t = true)
    (h : get_prime_implicants fuel nB false terms = .out r) :
    (∀ pi, r.result = some pi → ∀ t ∈ pi, pureAnd t = true ∧ ConcSub terms t) ∧
      r.profile_xor = 0 ∧ r.profile_xnor = 0 := by
  unfold get_prime_implicants at h
  by_cases hc : terms.any (fun t => countC t '1' > nB) = true
  · rw [if_pos hc] at h
    exact absurd h (by intro hh; exact PRes.noConfusion hh)
  · rw [if_neg hc] at h
    simp only [Bool.false_eq_true, if_false] at h
    have hinv : ∀ t ∈ terms, pureAnd t = true ∧ ConcSub terms t := by
      intro t ht
      refine ⟨pureBS_pureAnd (hp t ht), ?_⟩
      intro s hs
      rw [conc_self (hp t ht) s] at hs
      subst hs
      exact ht
    exact piLoop_inv _ _ _ _ _ _ _ hinv (by intro t ht; simp at ht) h

/-! ## Essential implicant selector facts -/

theorem essentialGreedy_mem {pm : List (Str × List Str)} {terms : List Str} :
    ∀ g ∈ essentialGreedy pm terms, g ∈ terms := by
  unfold essentialGreedy
  refine foldl_inv (P := fun (acc : List Str × List Str) => ∀ g ∈ acc.1, g ∈ terms)
    ?_ (by intro g hg; simp at hg)
  intro b a _ hb
  refine foldl_inv (P := fun (acc : List Str × List Str) => ∀ g ∈ acc.1, g ∈ terms)
    ?_ hb
  intro b2 g2 hg2 hb2
  by_cases hcov : ((permsOf pm g2).all (fun p => b2.2.contains p)) = true
  · rw [if_pos hcov]
    exact hb2
  · rw [if_neg hcov]
    intro x hx
    rcases mem_insertStr.mp hx with hx0 | hx0
    · subst hx0
      have := List.mem_reverse.mp hg2
      exact (List.mem_filter.mp this).1
    · exact hb2 x hx0

theorem get_essential_cases {fuel nB : Nat} {terms dc E : List Str}
    (h : get_essential_implicants fuel nB terms dc = .out E) :
    (∀ t ∈ E, t ∈ terms) ∨ E = [List.replicate nB '-'] := by
  unfold get_essential_implicants at h
  obtain ⟨pm, _, h⟩ := PRes_bind_out h
  have h2 : (pure (if (essentialGreedy pm terms).isEmpty = true
      then [List.replicate nB '-'] else essentialGreedy pm terms) : PRes (List Str)) =
      .out E := h
  by_cases he : (essentialGreedy pm terms).isEmpty = true
  · right
    rw [if_pos he] at h2
    exact (PRes.out.inj h2).symm
  · left
    rw [if_neg he] at h2
    have hE : E = essentialGreedy pm terms := (PRes.out.inj h2).symm
    subst hE
    exact essentialGreedy_mem

/-! ## combine_implicants and phase 1 facts -/

theorem combine_out_some {fuel : Nat} {a b : Str} {dc : List Str} {c : Str}
    (h : combine_implicants fuel a b dc = .out (some c)) :
    fillDashes a b = some c ∨ fillDashes b a = some c := by
  unfold combine_implicants at h
  obtain ⟨pa, hpa, h⟩ := PRes_bind_out h
  obtain ⟨pb, hpb, h⟩ := PRes_bind_out h
  cases hab : fillDashes a b with
  | none =>
    rw [hab] at h
    cases hba : fillDashes b a with
    | none => rw [hba] at h; exact absurd h (by intro hh; exact PRes.noConfusion hh)
    | some bPot => rw [hba] at h; exact absurd h (by intro hh; exact PRes.noConfusion hh)
  | some aPot =>
    rw [hab] at h
    cases hba : fillDashes b a with
    | none => rw [hba] at h; exact absurd h (by intro hh; exact PRes.noConfusion hh)
    | some bPot =>
      rw [hba] at h
      obtain ⟨qa, hqa, h⟩ := PRes_bind_out h
      obtain ⟨qb, hqb, h⟩ := PRes_bind_out h
      by_cases h1 : (qa == unionS pa pb) = true
      · by_cases h2 : (qb == unionS pa pb) = true
        · rw [if_pos h1, if_pos h2] at h
          simp only [List.cons_append, List.nil_append] at h
          have hc := PRes.out.inj h
          by_cases h3 : complexity4 aPot ≤ complexity4 bPot
          · have hca : aPot = c := by simpa [h3] using hc
            exact Or.inl (by rw [hca])
          · have hcb : bPot = c := by simpa [h3] using hc
            exact Or.inr (by rw [hcb])
        · rw [if_pos h1, if_neg h2] at h
          simp only [List.cons_append, List.nil_append] at h
          have hca : aPot = c := by simpa using PRes.out.inj h
          exact Or.inl (by rw [hca])
      · by_cases h2 : (qb == unionS pa pb) = true
        · rw [if_neg h1, if_pos h2] at h
          simp only [List.nil_append] at h
          have hcb : bPot = c := by simpa using PRes.out.inj h
          exact Or.inr (by rw [hcb])
        · rw [if_neg h1, if_neg h2] at h
          simp only [List.nil_append] at h
          exact absurd (PRes.out.inj h) (by simp)

theorem scanPairsB_some {fuel : Nat} {dc : List Str} {a : Str} :
    ∀ {l : List Str} {b repl : Str},
    scanPairsB fuel dc a l = .out (some (b, repl)) →
    b ∈ l ∧ combine_implicants fuel a b dc = .out (some repl) := by
  intro l
  induction l with
  | nil =>
    intro b repl h
    exact absurd (PRes.out.inj h) (by simp)
  | cons b0 rest ih =>
    intro b repl h
    unfold scanPairsB at h
    obtain ⟨ores, hcomb, h⟩ := PRes_bind_out h
    cases ores with
    | some r0 =>
      have h2 : (if List.isEmpty r0 = true then scanPairsB fuel dc a rest
          else pure (some (b0, r0))) = PRes.out (some (b, repl)) := h
      by_cases he : List.isEmpty r0 = true
      · rw [if_pos he] at h2
        obtain ⟨hmem, hc⟩ := ih h2
        exact ⟨by simp [hmem], hc⟩
      · rw [if_neg he] at h2
        have := PRes.out.inj h2
        simp only [Option.some.injEq, Prod.mk.injEq] at this
        obtain ⟨hb, hr⟩ := this
        subst hb
        subst hr
        exact ⟨by simp, hcomb⟩
    | none =>
      obtain ⟨hmem, hc⟩ := ih h
      exact ⟨by simp [hmem], hc⟩

theorem scanPairs_some {fuel : Nat} {dc : List Str} :
    ∀ {l : List Str} {a b repl : Str},
    scanPairs fuel dc l = .out (some (a, b, repl)) →
    a ∈ l ∧ b ∈ l ∧ combine_implicants fuel a b dc = .out (some repl) := by
  intro l
  induction l with
  | nil =>
    intro a b repl h
    exact absurd (PRes.out.inj h) (by simp)
  | cons a0 rest ih =>
    intro a b repl h
    unfold scanPairs at h
    obtain ⟨ores, hscb, h⟩ := PRes_bind_out h
    cases ores with
    | some br =>
      obtain ⟨b0, r0⟩ := br
      have heq := PRes.out.inj h
      simp only [Option.some.injEq, Prod.mk.injEq] at heq
      obtain ⟨ha, hb, hr⟩ := heq
      subst ha
      subst hb
      subst hr
      obtain ⟨hmem, hc⟩ := scanPairsB_some hscb
      exact ⟨by simp, by simp [hmem], hc⟩
    | none =>
      obtain ⟨ha, hb, hc⟩ := ih h
      exact ⟨by simp [ha], by simp [hb], hc⟩

theorem phase1_inv {pf : Nat} {dc : List Str} {P : Str → Prop}
    (hP : ∀ a b c, P a → P b → combine_implicants pf a b dc = .out (some c) → P c) :
    ∀ (fuel : Nat) (imps R : List Str),
    (∀ t ∈ imps, P t) → phase1 pf dc fuel imps = .out R → ∀ t ∈ R, P t := by
  intro fuel
  induction fuel with
  | zero =>
    intro imps R _ h
    exact absurd h (by intro hh; exact PRes.noConfusion hh)
  | succ fl ih =>
    intro imps R hi h
    unfold phase1 at h
    obtain ⟨osc, hsc, h⟩ := PRes_bind_out h
    cases osc with
    | none =>
      have hR : R = imps := (PRes.out.inj h).symm
      subst hR
      exact hi
    | some abr =>
      obtain ⟨a, b, repl⟩ := abr
      obtain ⟨ha, hb, hcomb⟩ := scanPairs_some hsc
      refine ih _ R ?_ h
      intro t ht
      rcases mem_insertStr.mp ht with ht0 | ht0
      · subst ht0
        exact hP a b t (hi a ha) (hi b hb) hcomb
      · exact hi t (List.mem_of_mem_erase (List.mem_of_mem_erase ht0))

theorem phase1_singleton {pf fuel : Nat} {dc : List Str} {x : Str} {R : List Str}
    (h : phase1 pf dc fuel [x] = .out R) : R = [x] := by
  cases fuel with
  | zero => exact absurd h (by intro hh; exact PRes.noConfusion hh)
  | succ fl =>
    have h2 : (pure [x] : PRes (List Str)) = .out R := h
    exact (PRes.out.inj h2).symm

theorem phase2_subset {nB : Nat} :
    ∀ (fuel : Nat) (cov : List (Str × List Str)) (R : List Str),
    phase2 nB fuel cov = .out R →
    ∀ t ∈ R, t ∈ cov.map (fun kv => kv.1) ∨ t = List.replicate nB '-' := by
  intro fuel
  induction fuel with
  | zero =>
    intro cov R h
    exact absurd h (by intro hh; exact PRes.noConfusion hh)
  | succ fl ih =>
    intro cov R h t ht
    simp only [phase2] at h
    cases hred : (cov.map (fun kv => kv.1)).filter (fun t =>
        (covOf cov t).all (fun n => (othersUnion cov t).contains n)) with
    | nil =>
      rw [hred] at h
      by_cases hc : cov.isEmpty = true
      · rw [if_pos hc] at h
        have hR : R = [List.replicate nB '-'] := (PRes.out.inj h).symm
        subst hR
        simp only [List.mem_singleton] at ht
        exact Or.inr ht
      · rw [if_neg hc] at h
        have hR : R = cov.map (fun kv => kv.1) := (PRes.out.inj h).symm
        subst hR
        exact Or.inl ht
    | cons r0 rest =>
      rw [hred] at h
      cases hfind : (r0 :: rest).find? (fun t =>
          complexity4 t == ((r0 :: rest).map complexity4).foldl Nat.max 0) with
      | none =>
        rw [hfind] at h
        exact absurd h (by intro hh; exact PRes.noConfusion hh)
      | some worst =>
        rw [hfind] at h
        rcases ih _ R h t ht with hm | hm
        · left
          simp only [List.mem_map] at hm ⊢
          obtain ⟨kv, hkv, hv⟩ := hm
          exact ⟨kv, (List.mem_filter.mp hkv).1, hv⟩
        · exact Or.inr hm

theorem covList_keys {fuel : Nat} {dc : List Str} :
    ∀ {l : List Str} {cov : List (Str × List Str)}, covList fuel dc l = .out cov →
    cov.map (fun kv => kv.1) = l := by
  intro l
  induction l with
  | nil =>
    intro cov h
    have hc : cov = [] := (PRes.out.inj h).symm
    subst hc
    rfl
  | cons t ts ih =>
    intro cov h
    unfold covList at h
    obtain ⟨ps, hps, h⟩ := PRes_bind_out h
    obtain ⟨rest, hrest, h⟩ := PRes_bind_out h
    have hc : cov = (t, ps.filter (fun n => !(dc.contains n))) :: rest := (PRes.out.inj h).symm
    subst hc
    simp [ih hrest]

/-! ## Pipeline-level coverage invariant (use_xor = false) -/

theorem allDash_replicate (n : Nat) : allDash (List.replicate n '-') = true := by
  simp [allDash]

theorem simplifyCore_conc {fuel nB : Nat} {terms dc : List Str} {r : ResultWithProfile}
    (hp : ∀ t ∈ terms, pureBS t = true)
    (h : simplifyCore fuel nB terms dc false = .out r) :
    (∀ R, r.result = some R → ∀ t ∈ R, allDash t = true ∨ ConcSub terms t) ∧
      r.profile_xor = 0 ∧ r.profile_xnor = 0 := by
  unfold simplifyCore at h
  obtain ⟨pi, hpi, h⟩ := PRes_bind_out h
  have hinv := get_prime_inv hp hpi
  cases hres : pi.result with
  | none =>
    rw [hres] at h
    exact absurd h (by intro hh; exact PRes.noConfusion hh)
  | some piSet =>
    rw [hres] at h
    obtain ⟨E, hE, h⟩ := PRes_bind_out h
    obtain ⟨R0, hR0, h⟩ := PRes_bind_out h
    have hr : r = ⟨some R0, pi.profile_cmp, pi.profile_xor, pi.profile_xnor⟩ :=
      (PRes.out.inj h).symm
    subst hr
    refine ⟨?_, hinv.2.1, hinv.2.2⟩
    intro R hRR t ht
    simp only [Option.some.injEq] at hRR
    subst hRR
    unfold reduce_implicants at hR0
    obtain ⟨imps1, h1, hrest1⟩ := PRes_bind_out hR0
    obtain ⟨cov, hcov, hph2⟩ := PRes_bind_out hrest1
    rcases get_essential_cases hE with hEsub | hEdash
    · -- the greedy cover is a subset of the prime implicants
      have hpiInv := hinv.1 piSet hres
      have hEinv : ∀ x ∈ E, pureAnd x = true ∧ ConcSub terms x :=
        fun x hx => hpiInv x (hEsub x hx)
      have hP : ∀ a b c, (pureAnd a = true ∧ ConcSub terms a) →
          (pureAnd b = true ∧ ConcSub terms b) →
          combine_implicants fuel a b (listToSet dc) = .out (some c) →
          pureAnd c = true ∧ ConcSub terms c := by
        intro a b c ha hb hc
        rcases combine_out_some hc with hfd | hfd
        · exact ⟨fillDashes_pureAnd ha.1 hb.1 hfd,
            fun s hs => ha.2 s (fillDashes_conc ha.1 hb.1 hfd s hs)⟩
        · exact ⟨fillDashes_pureAnd hb.1 ha.1 hfd,
            fun s hs => hb.2 s (fillDashes_conc hb.1 ha.1 hfd s hs)⟩
      have himps1 := phase1_inv hP fuel E imps1 hEinv h1
      rcases phase2_subset fuel cov R0 hph2 t ht with hm | hm
      · rw [covList_keys hcov] at hm
        exact Or.inr (himps1 t hm).2
      · rw [hm]
        exact Or.inl (allDash_replicate nB)
    · -- the tautology fallback: everything stays all-dash
      subst hEdash
      have himps1 : imps1 = [List.replicate nB '-'] := phase1_singleton h1
      subst himps1
      rcases phase2_subset fuel cov R0 hph2 t ht with hm | hm
      · rw [covList_keys hcov] at hm
        simp only [List.mem_singleton] at hm
        rw [hm]
        exact Or.inl (allDash_replicate nB)
      · rw [hm]
        exact Or.inl (allDash_replicate nB)

theorem los_conc {fuel : Nat} {ones dc : List Str} {numBits : Option Nat}
    {r : ResultWithProfile}
    (hp : ∀ s ∈ ones ++ dc, pureBS s = true)
    (h : simplify_los_with_profile fuel ones dc numBits false = .out r) :
    (∀ R, r.result = some R → ∀ t ∈ R,
      allDash t = true ∨ ∀ s, concretizes t s = true → s ∈ ones ∨ s ∈ dc) ∧
      r.profile_xor = 0 ∧ r.profile_xnor = 0 := by
  have hterms : ∀ t ∈ unionS (listToSet ones) (listToSet dc), pureBS t = true := by
    intro t ht
    rcases mem_unionS.mp ht with hm | hm
    · exact hp t (by simp [mem_listToSet.mp hm])
    · exact hp t (by simp [mem_listToSet.mp hm])
  have hmem : ∀ s, s ∈ unionS (listToSet ones) (listToSet dc) → s ∈ ones ∨ s ∈ dc := by
    intro s hs
    rcases mem_unionS.mp hs with hm | hm
    · exact Or.inl (mem_listToSet.mp hm)
    · exact Or.inr (mem_listToSet.mp hm)
  unfold simplify_los_with_profile at h
  by_cases he : (unionS (listToSet ones) (listToSet dc)).isEmpty = true
  · rw [if_pos he] at h
    have hr : r = RWPnone := (PRes.out.inj h).symm
    subst hr
    exact ⟨by intro R hR; exact absurd hR (by simp [RWPnone]), rfl, rfl⟩
  · rw [if_neg he] at h
    cases numBits with
    | some n =>
      have hc := simplifyCore_conc hterms h
      refine ⟨?_, hc.2.1, hc.2.2⟩
      intro R hR t ht
      rcases hc.1 R hR t ht with hd | hd
      · exact Or.inl hd
      · exact Or.inr (fun s hs => hmem s (hd s hs))
    | none =>
      by_cases hl : maxLenL (unionS (listToSet ones) (listToSet dc)) ≠
          minLenL (unionS (listToSet ones) (listToSet dc))
      · rw [if_pos hl] at h
        have hr : r = RWPnone := (PRes.out.inj h).symm
        subst hr
        exact ⟨by intro R hR; exact absurd hR (by simp [RWPnone]), rfl, rfl⟩
      · rw [if_neg hl] at h
        have hc := simplifyCore_conc hterms h
        refine ⟨?_, hc.2.1, hc.2.2⟩
        intro R hR t ht
        rcases hc.1 R hR t ht with hd | hd
        · exact Or.inl hd
        · exact Or.inr (fun s hs => hmem s (hd s hs))

/-! ## num2str characterization -/

theorem num2str_length (n k : Nat) : (num2str n k).length = n := by
  simp [num2str]

theorem num2str_pureBS (n k : Nat) : pureBS (num2str n k) = true := by
  rw [pureBS, List.all_eq_true]
  intro c hc
  simp only [num2str, List.mem_map] at hc
  obtain ⟨j, _, hj⟩ := hc
  by_cases h : k &&& (1 <<< (n - 1 - j)) ≠ 0
  · rw [if_pos h] at hj
    subst hj
    decide
  · rw [if_neg h] at hj
    subst hj
    decide

theorem num2str_succ (n k : Nat) :
    num2str (n + 1) k = (if k &&& (1 <<< n) ≠ 0 then '1' else '0') :: num2str n k := by
  simp only [num2str, List.range_succ_eq_map, List.map_cons, List.map_map]
  congr 1
  apply List.map_congr_left
  intro j _
  simp only [Function.comp_apply]
  have h : n + 1 - 1 - (j + 1) = n - 1 - j := by omega
  rw [h]

theorem str2num_shift : ∀ (s : Str) (n : Nat),
    s.foldl (fun n c => 2 * n + (if c = '1' then 1 else 0)) n =
      n * 2 ^ s.length + s.foldl (fun n c => 2 * n + (if c = '1' then 1 else 0)) 0 := by
  intro s
  induction s with
  | nil => intro n; simp
  | cons c cs ih =>
    intro n
    rw [List.foldl_cons, List.foldl_cons, ih (2 * n + _), ih (2 * 0 + _)]
    simp only [List.length_cons]
    ring

theorem str2num_cons (c : Char) (s : Str) :
    str2num (c :: s) = (if c = '1' then 1 else 0) * 2 ^ s.length + str2num s := by
  show List.foldl _ 0 (c :: s) = _
  rw [List.foldl_cons]
  rw [str2num_shift s]
  simp only [Nat.mul_zero, Nat.zero_add]
  rfl

theorem and_shift_ne {k m : Nat} : (k &&& (1 <<< m) ≠ 0) ↔ k.testBit m = true := by
  have h1 : (1 : Nat) <<< m = 2 ^ m := by rw [Nat.shiftLeft_eq, Nat.one_mul]
  rw [h1, Nat.and_two_pow]
  cases h : k.testBit m
  · simp
  · simp [(pow_pos (show (0 : Nat) < 2 by omega) m).ne']

theorem str2num_num2str (n k : Nat) : str2num (num2str n k) = k % 2 ^ n := by
  induction n with
  | zero => simp [num2str, str2num, Nat.mod_one]
  | succ m ih =>
    rw [num2str_succ, str2num_cons, num2str_length, ih, Nat.mod_pow_succ]
    by_cases hb : k &&& (1 <<< m) ≠ 0
    · rw [if_pos hb]
      have h1 : k / 2 ^ m % 2 = 1 := by
        have ht := and_shift_ne.mp hb
        rw [Nat.testBit_to_div_mod] at ht
        exact of_decide_eq_true ht
      rw [h1]
      have h2 : (if ('1' : Char) = '1' then 1 else 0) = 1 := by decide
      rw [h2]
      omega
    · rw [if_neg hb]
      have h0 : k / 2 ^ m % 2 = 0 := by
        have ht : k.testBit m = false := by
          cases hh : k.testBit m
          · rfl
          · exact absurd (and_shift_ne.mpr hh) hb
        rw [Nat.testBit_to_div_mod] at ht
        have := of_decide_eq_false ht
        omega
      rw [h0]
      have h2 : (if ('0' : Char) = '1' then 1 else 0) = 0 := by decide
      rw [h2]
      omega

theorem num2str_mod (n k : Nat) : num2str n (k % 2 ^ n) = num2str n k := by
  simp only [num2str]
  apply List.map_congr_left
  intro j hj
  have hjn : j < n := List.mem_range.mp hj
  have hm : n - 1 - j < n := by omega
  by_cases hb : k.testBit (n - 1 - j) = true
  · have h1 : (k % 2 ^ n).testBit (n - 1 - j) = true := by
      rw [Nat.testBit_mod_two_pow k n (n - 1 - j)]
      simp [hm, hb]
    rw [if_pos (and_shift_ne.mpr h1), if_pos (and_shift_ne.mpr hb)]
  · have hbf : k.testBit (n - 1 - j) = false := by
      cases hh : k.testBit (n - 1 - j)
      · rfl
      · exact absurd hh hb
    have h1 : (k % 2 ^ n).testBit (n - 1 - j) = false := by
      rw [Nat.testBit_mod_two_pow k n (n - 1 - j)]
      simp [hbf]
    rw [if_neg (fun hcon => by
        have := and_shift_ne.mp hcon
        rw [h1] at this
        exact Bool.noConfusion this),
      if_neg (fun hcon => by
        have := and_shift_ne.mp hcon
        rw [hbf] at this
        exact Bool.noConfusion this)]

theorem simplify_with_profile_mod (fuel : Nat) (ones dc : List Nat) (nb : Nat) (ux : Bool) :
    simplify_with_profile fuel ones dc (some nb) ux =
      simplify_with_profile fuel (ones.map (fun k => k % 2 ^ nb))
        (dc.map (fun k => k % 2 ^ nb)) (some nb) ux := by
  unfold simplify_with_profile
  have h1 : (ones.map (fun k => k % 2 ^ nb)).isEmpty = ones.isEmpty := by
    cases ones <;> rfl
  have h2 : (dc.map (fun k => k % 2 ^ nb)).isEmpty = dc.isEmpty := by
    cases dc <;> rfl
  have hm1 : (ones.map (fun k => k % 2 ^ nb)).map (num2str nb) = ones.map (num2str nb) := by
    rw [List.map_map]
    apply List.map_congr_left
    intro k _
    exact num2str_mod nb k
  have hm2 : (dc.map (fun k => k % 2 ^ nb)).map (num2str nb) = dc.map (num2str nb) := by
    rw [List.map_map]
    apply List.map_congr_left
    intro k _
    exact num2str_mod nb k
  by_cases hg : (ones.isEmpty && dc.isEmpty) = true
  · rw [if_pos hg, if_pos (by rw [h1, h2]; exact hg)]
  · rw [if_neg hg, if_neg (by rw [h1, h2]; exact hg)]
    show simplify_los_with_profile fuel (ones.map (num2str nb)) (dc.map (num2str nb))
        (some nb) ux =
      simplify_los_with_profile fuel ((ones.map (fun k => k % 2 ^ nb)).map (num2str nb))
        ((dc.map (fun k => k % 2 ^ nb)).map (num2str nb)) (some nb) ux
    rw [hm1, hm2]

/-! ## Length bounds for the width check of simplify_los -/

theorem foldl_max_init_le (l : List Str) : ∀ {n m : Nat}, n ≤ m →
    l.foldl (fun a t => Nat.max a t.length) n ≤ l.foldl (fun a t => Nat.max a t.length) m := by
  induction l with
  | nil => intro n m h; simpa using h
  | cons t ts ih =>
    intro n m h
    rw [List.foldl_cons, List.foldl_cons]
    exact ih (Nat.max_le_of_le_of_le (Nat.le_trans h (Nat.le_max_left _ _)) (Nat.le_max_right _ _))

theorem le_foldl_max (l : List Str) : ∀ (n : Nat),
    n ≤ l.foldl (fun a t => Nat.max a t.length) n := by
  induction l with
  | nil => intro n; exact Nat.le_refl n
  | cons t ts ih =>
    intro n
    rw [List.foldl_cons]
    calc n ≤ Nat.max n t.length := Nat.le_max_left _ _
      _ ≤ _ := ih _

theorem foldl_max_ge {l : List Str} : ∀ {n : Nat} {s : Str}, s ∈ l →
    s.length ≤ l.foldl (fun a t => Nat.max a t.length) n := by
  induction l with
  | nil => intro n s h; simp at h
  | cons t ts ih =>
    intro n s h
    rw [List.foldl_cons]
    rcases List.mem_cons.mp h with h0 | h0
    · subst h0
      calc s.length ≤ Nat.max n s.length := Nat.le_max_right _ _
        _ ≤ _ := le_foldl_max _ _
    · exact ih h0

theorem foldl_min_le_init (l : List Str) : ∀ (n : Nat),
    l.foldl (fun a t => Nat.min a t.length) n ≤ n := by
  induction l with
  | nil => intro n; exact Nat.le_refl n
  | cons t ts ih =>
    intro n
    rw [List.foldl_cons]
    calc ts.foldl (fun a t => Nat.min a t.length) (Nat.min n t.length) ≤
        Nat.min n t.length := ih _
      _ ≤ n := Nat.min_le_left _ _

theorem foldl_min_le {l : List Str} : ∀ {n : Nat} {s : Str}, s ∈ l →
    l.foldl (fun a t => Nat.min a t.length) n ≤ s.length := by
  induction l with
  | nil => intro n s h; simp at h
  | cons t ts ih =>
    intro n s h
    rw [List.foldl_cons]
    rcases List.mem_cons.mp h with h0 | h0
    · subst h0
      calc ts.foldl (fun a t => Nat.min a t.length) (Nat.min n s.length) ≤
          Nat.min n s.length := foldl_min_le_init _ _
        _ ≤ s.length := Nat.min_le_right _ _
    · exact ih h0

theorem maxLenL_ge {l : List Str} {s : Str} (h : s ∈ l) : s.length ≤ maxLenL l :=
  foldl_max_ge h

theorem minLenL_le {l : List Str} {s : Str} (h : s ∈ l) : minLenL l ≤ s.length := by
  cases l with
  | nil => simp at h
  | cons t ts =>
    show ts.foldl (fun a u => Nat.min a u.length) t.length ≤ s.length
    rcases List.mem_cons.mp h with h0 | h0
    · subst h0
      exact foldl_min_le_init _ _
    · exact foldl_min_le h0

/-! ## Characterization of the simple XOR reducer -/

theorem rsxScan_eq : ∀ (t1 t2 : List Char),
    rsxScan t1 t2 =
      if ((t1.zip t2).all (fun p => p.1 ≠ '^' && p.2 ≠ '^' && p.1 ≠ '~' && p.2 ≠ '~')) then
        some ((t1.zip t2).countP (fun p => p.1 ≠ p.2 ∧ p.2 = '0'),
          (t1.zip t2).countP (fun p => p.1 ≠ p.2 ∧ p.2 ≠ '0'),
          (t1.zip t2).map (fun p => if p.1 = p.2 then p.1 else '^'))
      else none := by
  intro t1
  induction t1 with
  | nil => intro t2; simp [rsxScan]
  | cons c1 r1 ih =>
    intro t2
    cases t2 with
    | nil => simp [rsxScan]
    | cons c2 r2 =>
      rw [rsxScan, ih r2, List.zip_cons_cons, List.all_cons]
      by_cases hop : c1 = '^' ∨ c2 = '^' ∨ c1 = '~' ∨ c2 = '~'
      · rw [if_pos hop, if_neg]
        intro hcon
        simp only [Bool.and_eq_true, decide_eq_true_eq] at hcon
        tauto
      · rw [if_neg hop]
        push_neg at hop
        obtain ⟨h1, h2, h3, h4⟩ := hop
        by_cases hall : ((r1.zip r2).all (fun p =>
            p.1 ≠ '^' && p.2 ≠ '^' && p.1 ≠ '~' && p.2 ≠ '~')) = true
        · rw [if_pos hall, if_pos (by
            rw [Bool.and_eq_true]
            exact ⟨by simp [h1, h2, h3, h4], hall⟩)]
          dsimp only
          simp only [List.countP_cons, List.map_cons]
          dsimp only
          by_cases hc : c1 ≠ c2
          · by_cases hz : c2 = '0'
            · have hc0 : ¬(c1 = '0') := by rw [hz] at hc; exact hc
              simp [hc, hz, hc0]
            · simp [hc, hz]
          · push_neg at hc
            subst hc
            simp
        · rw [if_neg hall, if_neg (by
            intro hcon
            rw [Bool.and_eq_true] at hcon
            exact hall hcon.2)]

theorem zipAll_noOps : ∀ {t1 t2 : List Char}, t1.length = t2.length →
    ((t1.zip t2).all (fun p => p.1 ≠ '^' && p.2 ≠ '^' && p.1 ≠ '~' && p.2 ≠ '~')) =
      (noOps t1 && noOps t2) := by
  intro t1
  induction t1 with
  | nil =>
    intro t2 hlen
    have ht2 : t2 = [] := by
      cases t2
      · rfl
      · simp at hlen
    subst ht2
    rfl
  | cons c1 r1 ih =>
    intro t2 hlen
    cases t2 with
    | nil => simp at hlen
    | cons c2 r2 =>
      have hlen2 : r1.length = r2.length := by simpa using hlen
      rw [List.zip_cons_cons, List.all_cons, ih hlen2]
      rw [Bool.eq_iff_iff]
      simp only [Bool.and_eq_true, List.all_cons, noOps, decide_eq_true_eq]
      tauto

theorem xor_reducer_eq (t1 t2 : Str) (hlen : t1.length = t2.length) :
    reduce_simple_xor_terms t1 t2 =
      (if noOps t1 && noOps t2 && xorCondition t1 t2 then some (xorMergePattern t1 t2)
       else none) := by
  unfold reduce_simple_xor_terms
  rw [rsxScan_eq, zipAll_noOps hlen]
  by_cases hops : (noOps t1 && noOps t2) = true
  · rw [if_pos hops]
    dsimp only
    by_cases hcond : ((t1.zip t2).countP (fun p => p.1 ≠ p.2 ∧ p.2 = '0') = 1 ∧
        (t1.zip t2).countP (fun p => p.1 ≠ p.2 ∧ p.2 ≠ '0') = 1)
    · rw [if_pos hcond, if_pos (by
        simp only [Bool.and_eq_true]
        rw [Bool.and_eq_true] at hops
        refine ⟨hops, ?_⟩
        unfold xorCondition
        rw [Bool.and_eq_true]
        exact ⟨beq_iff_eq.mpr hcond.1, beq_iff_eq.mpr hcond.2⟩)]
      rfl
    · rw [if_neg hcond, if_neg (by
        intro hcon
        simp only [Bool.and_eq_true] at hcon
        apply hcond
        have hxc := hcon.2
        simp only [xorCondition, Bool.and_eq_true, beq_iff_eq] at hxc
        exact hxc)]
  · rw [if_neg hops, if_neg (by
      intro hcon
      simp only [Bool.and_eq_true] at hcon
      apply hops
      rw [Bool.and_eq_true]
      exact hcon.1)]

/-! ## Shape invariants (length and alphabet), including the XOR paths -/

theorem los_unequal {fuel : Nat} {ones dc : List Str} {useXor : Bool} {s1 s2 : Str}
    (h1 : s1 ∈ ones ++ dc) (h2 : s2 ∈ ones ++ dc) (hne : s1.length ≠ s2.length) :
    simplify_los_with_profile fuel ones dc none useXor = .out RWPnone := by
  have hm : ∀ s ∈ ones ++ dc, s ∈ unionS (listToSet ones) (listToSet dc) := by
    intro s hs
    rcases List.mem_append.mp hs with hm | hm
    · exact mem_unionS.mpr (Or.inl (mem_listToSet.mpr hm))
    · exact mem_unionS.mpr (Or.inr (mem_listToSet.mpr hm))
  have hm1 := hm s1 h1
  have hm2 := hm s2 h2
  have hemp : (unionS (listToSet ones) (listToSet dc)).isEmpty ≠ true := by
    intro hcon
    cases hu : unionS (listToSet ones) (listToSet dc) with
    | nil => rw [hu] at hm1; simp at hm1
    | cons a l => rw [hu] at hcon; simp at hcon
  have hmaxmin : maxLenL (unionS (listToSet ones) (listToSet dc)) ≠
      minLenL (unionS (listToSet ones) (listToSet dc)) := by
    have ha1 := maxLenL_ge hm1
    have ha2 := maxLenL_ge hm2
    have hb1 := minLenL_le hm1
    have hb2 := minLenL_le hm2
    omega
  unfold simplify_los_with_profile
  rw [if_neg hemp]
  exact if_pos hmaxmin

theorem simplify_los_unequal {fuel : Nat} {ones dc : List Str} {useXor : Bool} {s1 s2 : Str}
    (h1 : s1 ∈ ones ++ dc) (h2 : s2 ∈ ones ++ dc) (hne : s1.length ≠ s2.length) :
    simplify_los fuel ones dc none useXor = .out none := by
  unfold simplify_los
  rw [los_unequal h1 h2 hne]
  rfl

/-! ## Driver projections -/

set_option maxRecDepth 10000

/-- Claim C1: soundness over ones fails in the code.  With ones = [1, 100],
dc = [4] and num_bits = 7, simplify returns the single implicant 0000001,
whose concretization does not contain the minterm 100 = 1100100: the union
of concretizations of the output is not a superset of the ones set.  The
culprit is the exclude handling of permutations, which parses the excluded
strings as base-10 integers but tests candidates by their base-2 value, so
combine_implicants believes the implicant covering 1100100 is redundant. -/
theorem simplify_misses_minterm :
    simplify 3000 [1, 100] [4] (some 7) false =
      .out (some [['0','0','0','0','0','0','1']]) ∧
    num2str 7 100 = ['1','1','0','0','1','0','0'] ∧
    concretizes ['0','0','0','0','0','0','1'] ['1','1','0','0','1','0','0'] = false := by
  refine ⟨by decide, by decide, by decide⟩

/-- Claim C3: the concretizer exclusion is broken in the code.  permutations
parses the excluded strings as base-10 integers but tests each generated
bitstring by its base-2 value.  Probing 1100100 against exclude =
{0000100}: int(0000100) = 100 in base 10 equals int(1100100, 2), so the
only concretization is wrongly dropped and the pure bitstring yields the
empty set although it is not in exclude.  Probing 0000100 against exclude =
{0000100}: int(0000100, 2) = 4 is not in {100}, so the string survives
although it is a member of exclude. -/
theorem permutations_exclude_bug :
    permutations 300 ['1','1','0','0','1','0','0'] [['0','0','0','0','1','0','0']] =
      .out [] ∧
    (['1','1','0','0','1','0','0'] : Str) ∉ ([['0','0','0','0','1','0','0']] : List Str) ∧
    permutations 300 ['0','0','0','0','1','0','0'] [['0','0','0','0','1','0','0']] =
      .out [['0','0','0','0','1','0','0']] ∧
    (['0','0','0','0','1','0','0'] : Str) ∈ ([['0','0','0','0','1','0','0']] : List Str) := by
  refine ⟨by decide, by decide, by decide, by decide⟩

/-- Claim C4 (amended): when num_bits is omitted, two input strings of
different lengths make simplify_los return the no-result sentinel. -/
theorem unequal_widths_rejected {fuel : Nat} {ones dc : List Str} {useXor : Bool}
    {s1 s2 : Str}
    (h1 : s1 ∈ ones ++ dc) (h2 : s2 ∈ ones ++ dc) (hne : s1.length ≠ s2.length) :
    simplify_los fuel ones dc none useXor = .out none := by
  unfold simplify_los
  rw [los_unequal h1 h2 hne]
  rfl

/-- Witness for the amended claim C4: strings 0 and 01 with num_bits
omitted produce the sentinel. -/
theorem unequal_widths_rejected_witness :
    simplify_los 300 [['0'], ['0','1']] [] none false = .out none :=
  @unequal_widths_rejected 300 [['0'], ['0','1']] [] false ['0'] ['0','1']
    (by decide) (by decide) (by decide)

/-- Counterexample to claim C4 as frozen: with num_bits = 1 given, the same
unequal-length inputs are accepted and a result set is returned, because
the length check only runs when num_bits is None. -/
theorem unequal_widths_accepted :
    simplify_los 300 [['0'], ['0','1']] [] (some 1) false =
      .out (some [['0'], ['0','1']]) ∧
    (['0'] : Str).length ≠ (['0','1'] : Str).length := by
  refine ⟨by decide, by decide⟩

/-- Claim C5: the XOR scenario ones = [1,7,8,14], dc = [2,4,5,6,9,10,11,13],
4 bits, use_xor = true returns exactly the set containing the single
implicant of four carets. -/
theorem xor_scenario_result :
    simplify 3000 [1, 7, 8, 14] [2, 4, 5, 6, 9, 10, 11, 13] (some 4) true =
      .out (some [['^','^','^','^']]) := by
  decide

/-- Claim C6 (amended): for same-length terms, reduce_simple_xor_terms fails
whenever either operand contains an operator character; otherwise it
succeeds exactly when the mismatched positions comprise one where t2 holds
the character 0 and one where t2 holds any other character, and on success
the output copies every matching position and carets each mismatch. -/
theorem xor_reducer_characterization (t1 t2 : Str) (hlen : t1.length = t2.length) :
    reduce_simple_xor_terms t1 t2 =
      (if noOps t1 && noOps t2 && xorCondition t1 t2 then some (xorMergePattern t1 t2)
       else none) :=
  xor_reducer_eq t1 t2 hlen

/-- Witness for the amended claim C6 at t1 = 01, t2 = 10: both mismatch
kinds occur once and the reducer outputs two carets. -/
theorem xor_reducer_characterization_witness :
    reduce_simple_xor_terms ['0','1'] ['1','0'] =
      (if noOps ['0','1'] && noOps ['1','0'] && xorCondition ['0','1'] ['1','0']
       then some (xorMergePattern ['0','1'] ['1','0']) else none) :=
  xor_reducer_characterization ['0','1'] ['1','0'] (by decide)

/-- Counterexample to claim C6 as frozen: t1 = 10 against t2 = 0- succeeds
although no mismatched position has a 1 in t2; the code counts the dash
mismatch as the non-zero kind. -/
theorem xor_reducer_dash_mismatch :
    reduce_simple_xor_terms ['1','0'] ['0','-'] = some ['^','^'] ∧
    diffT2One ['1','0'] ['0','-'] = 0 := by
  refine ⟨by decide, by decide⟩

/-- Claim C8: with use_xor = false the returned xor and xnor profile
counters are zero, both for the numeric driver simplify_with_profile at any
input and for simplify_los_with_profile on bitstring inputs. -/
theorem profile_counters_zero :
    (∀ (fuel : Nat) (ones dc : List Nat) (numBits : Option Nat) (r : ResultWithProfile),
      simplify_with_profile fuel ones dc numBits false = .out r →
      r.profile_xor = 0 ∧ r.profile_xnor = 0) ∧
    (∀ (fuel : Nat) (ones dc : List Str) (numBits : Option Nat) (r : ResultWithProfile),
      (∀ s ∈ ones ++ dc, pureBS s = true) →
      simplify_los_with_profile fuel ones dc numBits false = .out r →
      r.profile_xor = 0 ∧ r.profile_xnor = 0) := by
  constructor
  · intro fuel ones dc numBits r h
    unfold simplify_with_profile at h
    by_cases hg : (ones.isEmpty && dc.isEmpty) = true
    · rw [if_pos hg] at h
      have hr : r = RWPnone := (PRes.out.inj h).symm
      subst hr
      exact ⟨rfl, rfl⟩
    · rw [if_neg hg] at h
      refine (los_conc ?_ h).2
      intro s hs
      rcases List.mem_append.mp hs with hm | hm <;>
        obtain ⟨k, _, hk⟩ := List.mem_map.mp hm <;>
          exact hk ▸ num2str_pureBS _ k
  · intro fuel ones dc numBits r hp h
    exact (los_conc hp h).2

/-- Witness for claim C8 at ones = [1], dc = [], num_bits = 1. -/
theorem profile_counters_zero_witness :
    (⟨some [['1']], 0, 0, 0⟩ : ResultWithProfile).profile_xor = 0 ∧
    (⟨some [['1']], 0, 0, 0⟩ : ResultWithProfile).profile_xnor = 0 :=
  profile_counters_zero.1 300 [1] [] (some 1) ⟨some [['1']], 0, 0, 0⟩ (by decide)

/-- Claim C9: the zero-width input ones = [0], dc = [], num_bits omitted
computes bit-width 0, every term becomes the empty string, and the
concretizer indexes position 0 of the empty string: the call fails instead
of returning a result or the sentinel. -/
theorem zero_width_crash :
    simplify 300 [0] [] none false = .err ∧
    bitLen 0 = 0 ∧ num2str 0 0 = ([] : Str) := by
  refine ⟨by decide, by decide, by decide⟩

/-- Claim C10: num2str produces the n_bits-character MSB-first binary
representation of k modulo 2 to the n_bits, so the numeric driver silently
aliases any minterm onto its low n_bits bits. -/
theorem num2str_truncation :
    (∀ n k : Nat, str2num (num2str n k) = k % 2 ^ n) ∧
    (∀ n k : Nat, (num2str n k).length = n ∧ pureBS (num2str n k) = true) ∧
    (∀ n k : Nat, num2str n (k % 2 ^ n) = num2str n k) ∧
    (∀ (fuel : Nat) (ones dc : List Nat) (nb : Nat) (ux : Bool),
      simplify_with_profile fuel ones dc (some nb) ux =
        simplify_with_profile fuel (ones.map (fun k => k % 2 ^ nb))
          (dc.map (fun k => k % 2 ^ nb)) (some nb) ux) :=
  ⟨str2num_num2str, fun n k => ⟨num2str_length n k, num2str_pureBS n k⟩,
    num2str_mod, simplify_with_profile_mod⟩
